import Mathlib

/-!
Shallow embedding of the pkisensee/yaml library (src/yaml.h, src/yaml.cpp).

Two components are embedded, following the source:
* the scalar-safety encoder `Yaml.GetSpecialChars` / `Yaml.CreateSafeScalar`,
  operating on byte strings (`List Nat`, each entry a byte value);
* the event-driven scanner `YamlParser.Parse`, operating on character
  buffers (`List Char`), with an explicit parser state and an event list
  recording every handler callback in order.

C++ `size_t` values that can wrap (the column counter is decremented at
column 0 by `SkipSpaces`) are modelled as `Nat` with explicit arithmetic
modulo `2 ^ 64`; `size_t(-1)` sentinels (`kInvalidPos`, `kNoLevel`) are the
literal `2 ^ 64 - 1`.  Reads of `*curr_` beyond the end of the buffer (the
source performs them after `GetIndent` or after a closing quote at the end
of input) are modelled as yielding the NUL character, matching the null
terminator of a `std::string`-backed buffer.
-/

namespace Yaml

/-- One entry of the 256-entry ASCII presence table (`struct Letter` in
`Yaml::GetSpecialChars`): the first position recorded for a byte, and
whether the byte was seen. -/
structure Letter where
  firstPos : Nat
  found : Bool
deriving DecidableEq

/-- Result of the special-character analysis (`struct Yaml::Special`). -/
structure Special where
  firstSpecialPos : Nat := 0
  firstSingleQuote : Nat := 0
  firstDoubleQuote : Nat := 0
  hasSpecialChars : Bool := false
  specialChar : Nat := 0
deriving DecidableEq

/-- The `size_t(-1)` sentinel `kInvalidPos`. -/
def kInvalidPos : Nat := 2 ^ 64 - 1

/-- The fixed special-punctuation set `kSpecialChar` of `GetSpecialChars`,
as byte values. -/
def specialSet : List Nat :=
  [33, 34, 35, 36, 37, 38, 39, 42, 44, 45, 47, 58, 60, 61, 62, 63, 64, 91, 92, 93, 96]

/-- A byte is special when it is below `0x20` (space), above `0x7A` (`z`),
or a member of `specialSet`. -/
def isSpecialByte (c : Nat) : Bool :=
  decide (c < 32) || decide (122 < c) || specialSet.contains c

/-- The table-building loop of `GetSpecialChars`: for each character (cast
to an unsigned byte), if the table entry still has `firstPos == 0` the
entry is overwritten with the current index and marked found. -/
def buildGo : List Nat → Nat → (Nat → Letter) → (Nat → Letter)
  | [], _, t => t
  | a :: rest, i, t =>
    let b := a % 256
    buildGo rest (i + 1)
      (if (t b).firstPos = 0 then Function.update t b ⟨i, true⟩ else t)

/-- The ASCII presence table built from a scalar. -/
def buildTable (s : List Nat) : Nat → Letter :=
  buildGo s 0 (fun _ => ⟨0, false⟩)

/-- The scanning loop of `GetSpecialChars` over byte values `0..255`,
accumulating `(lowestPosition, firstSingleQuote, firstDoubleQuote)`. -/
def scanGo (t : Nat → Letter) : List Nat → Nat × Nat × Nat → Nat × Nat × Nat
  | [], acc => acc
  | c :: rest, (low, fsq, fdq) =>
    let acc :=
      if (t c).found then
        (if isSpecialByte c then (if (t c).firstPos < low then (t c).firstPos else low) else low,
         if c = 39 then (t c).firstPos else fsq,
         if c = 34 then (t c).firstPos else fdq)
      else (low, fsq, fdq)
    scanGo t rest acc

/-- A scalar that is already wrapped in matching quote characters of
length greater than 2 is treated as pre-quoted and left untouched. -/
def PreQuoted (s : List Nat) : Prop :=
  2 < s.length ∧ (s.headD 0 = 39 ∨ s.headD 0 = 34) ∧ s.headD 0 = s.getLastD 0

instance (s : List Nat) : Decidable (PreQuoted s) := by
  unfold PreQuoted
  infer_instance

/-- Embedding of `Yaml::GetSpecialChars`. -/
def GetSpecialChars (scalar : List Nat) : Special :=
  if scalar = [] then { hasSpecialChars := false }
  else if PreQuoted scalar then { hasSpecialChars := false }
  else
    let t := buildTable scalar
    let r := scanGo t (List.range 256) (kInvalidPos, kInvalidPos, kInvalidPos)
    if r.1 = kInvalidPos then { hasSpecialChars := false }
    else
      { firstSpecialPos := r.1
        firstSingleQuote := r.2.1
        firstDoubleQuote := r.2.2
        hasSpecialChars := true
        specialChar := scalar.getD r.1 0 }

/-- Embedding of `Yaml::CreateSafeScalar`: wrap the scalar in quotes when
the analysis found special characters, defaulting to a single quote and
switching to a double quote when the scalar contains a single quote. -/
def CreateSafeScalar (scalar : List Nat) : List Nat :=
  let special := GetSpecialChars scalar
  let quote : Nat :=
    if special.hasSpecialChars then
      if special.firstSingleQuote < kInvalidPos then 34 else 39
    else 0
  (if quote ≠ 0 then [quote] else []) ++ scalar ++ (if quote ≠ 0 then [quote] else [])

/-- The per-occurrence update of one presence-table entry: overwrite the
entry while its recorded position is still 0. -/
def stepLetter (L : Letter) (j : Nat) : Letter :=
  if L.firstPos = 0 then ⟨j, true⟩ else L

/-- The `lowestPosition` update of the scanning loop for one byte value. -/
def lowStep (t : Nat → Letter) (a c : Nat) : Nat :=
  if (t c).found && isSpecialByte c && decide ((t c).firstPos < a) then
    (t c).firstPos
  else a

/-- The `firstSingleQuote`/`firstDoubleQuote` update of the scanning loop
for one byte value, for quote byte `q`. -/
def quoteStep (t : Nat → Letter) (q : Nat) (a c : Nat) : Nat :=
  if (t c).found && decide (c = q) then (t c).firstPos else a

/-- Positions (0-based, offset by `i`) at which byte `b` occurs in a byte
list, after the unsigned-byte cast. -/
def occList : List Nat → Nat → Nat → List Nat
  | [], _, _ => []
  | a :: rest, i, b =>
    (if a % 256 = b then [i] else []) ++ occList rest (i + 1) b

/-- Position the presence table actually records for byte `b`: the first
nonzero position at which `b` occurs, or `0` when `b` occurs at position
`0` and nowhere else (this is the spec-side closed form of the table). -/
def firstPosSpec (s : List Nat) (b : Nat) : Nat :=
  ((occList s 0 b).find? (fun j => decide (j ≠ 0))).getD 0

/-- Whether byte `b` occurs in the scalar. -/
def foundSpec (s : List Nat) (b : Nat) : Bool :=
  (s.map (· % 256)).contains b

/-- Minimum of a list of naturals with initial value `kInvalidPos`. -/
def minFold (l : List Nat) : Nat := l.foldl min kInvalidPos

/-- Spec-side analysis result, in the words of the (amended) claim: for
each distinct byte the recorded position is `firstPosSpec`; the first
special position is the minimum recorded position among the distinct
special bytes of the scalar; the quote fields are the recorded positions
of the quote bytes when present, `kInvalidPos` otherwise. -/
def SpecialSpec (s : List Nat) : Special :=
  let specials := (s.map (· % 256)).dedup.filter isSpecialByte
  if specials = [] then { hasSpecialChars := false }
  else
    let low := minFold (specials.map (firstPosSpec s))
    { firstSpecialPos := low
      firstSingleQuote := if foundSpec s 39 then firstPosSpec s 39 else kInvalidPos
      firstDoubleQuote := if foundSpec s 34 then firstPosSpec s 34 else kInvalidPos
      hasSpecialChars := true
      specialChar := s.getD low 0 }

end Yaml

namespace YamlParser

/-- One frame of the indentation stack (`struct YamlParser::Indent`). -/
structure Indent where
  level : Nat
  isSequence : Bool
deriving DecidableEq

/-- Events delivered to the `YamlHandler` callbacks, in order. -/
inductive Event where
  | startDocument
  | endDocument
  | startSequence
  | endSequence
  | startMapping
  | endMapping
  | key (s : String)
  | scalar (s : String)
  | error (msg : String) (line : Nat) (col : Nat)
deriving DecidableEq

/-- A deterministic handler, modelled by its continue/stop answer to each
`onKey`/`onScalar` callback as a function of the events delivered so far
and the current event. -/
abbrev Handler := List Event → Event → Bool

/-- The handler that always continues. -/
def hTrue : Handler := fun _ _ => true

/-- Parser state: the input buffer, the cursor (`curr_` as an index),
the end index (`end_`, shrunk by a NUL byte), the 1-based line counter,
the column counter, the indent stack (top at the head), the
`completeKeyValuePair_` flag, and the events delivered so far. -/
structure PState where
  input : List Char
  pos : Nat
  endPos : Nat
  line : Nat
  col : Nat
  stack : List Indent
  complete : Bool
  events : List Event
deriving DecidableEq

/-- Modulus of `size_t` arithmetic. -/
def USizeMod : Nat := 2 ^ 64

/-- The `size_t(-1)` sentinel `kNoLevel`. -/
def kNoLevel : Nat := 2 ^ 64 - 1

/-- Read of `*curr_`-style memory: within the buffer the actual character,
past it the NUL terminator. -/
def chAt (input : List Char) (i : Nat) : Char := input.getD i (Char.ofNat 0)

/-- Level of the top stack frame (the stack is never empty during a
parse; the default is only for totality). -/
def topLevel (st : PState) : Nat := (st.stack.headD ⟨0, false⟩).level

/-- Append an `onError` event carrying the current line and column
(`YamlParser::Error`). -/
def ErrorSt (st : PState) (msg : String) : PState :=
  { st with events := st.events ++ [Event.error msg st.line st.col] }

/-- Embedding of `YamlParser::HandleMissingNull`: when a key is pending,
deliver a synthetic `onScalar("null")` and mark the pair complete. -/
def HandleMissingNull (st : PState) : PState :=
  if st.complete then st
  else { st with complete := true, events := st.events ++ [Event.scalar "null"] }

/-- Embedding of `YamlParser::Push`: mark the pending pair complete, push
the frame, and emit the matching start event. -/
def Push (st : PState) (ind : Indent) : PState :=
  { st with
    complete := true
    stack := ind :: st.stack
    events := st.events ++
      [if ind.isSequence then Event.startSequence else Event.startMapping] }

/-- Embedding of `YamlParser::Pop`: popping past the sentinel root frame
reports an error; otherwise flush a pending key as null, emit the end
event of the top frame, and pop it. -/
def Pop (st : PState) : Bool × PState :=
  if st.stack.length = 1 then
    (false, ErrorSt st "Too many closing braces or brackets")
  else
    let st := HandleMissingNull st
    let e := if (st.stack.headD ⟨0, false⟩).isSequence then Event.endSequence
             else Event.endMapping
    (true, { st with events := st.events ++ [e], stack := st.stack.tail })

/-- The `while (indent.level < top().level) Pop()` loop of `Parse`,
structurally recursive on the stack length. -/
def PopToGo (lvl : Nat) : Nat → PState → Bool × PState
  | 0, st => (true, st)
  | n + 1, st =>
    if lvl < topLevel st then
      if (Pop st).1 then PopToGo lvl n (Pop st).2 else (false, (Pop st).2)
    else (true, st)

/-- Pop frames until the top level is at most `lvl`. -/
def PopTo (lvl : Nat) (st : PState) : Bool × PState :=
  PopToGo lvl st.stack.length st

/-- Scan of leading spaces and dashes in `YamlParser::GetIndent`,
counting the indent level; the countdown argument is the distance from
the cursor to `end_`. -/
def GetIndentGo (input : List Char) : Nat → Nat → Nat → Bool → Nat × Nat × Bool
  | 0, pos, lvl, isSeq => (pos, lvl, isSeq)
  | n + 1, pos, lvl, isSeq =>
    let c := chAt input pos
    if c = ' ' || c = '-' then
      GetIndentGo input n (pos + 1) (lvl + 1) (isSeq || decide (c = '-'))
    else (pos, lvl, isSeq)

/-- Embedding of `YamlParser::GetIndent`: returns the new cursor position
and the computed indent; a line holding only `\r`, `\n` or a comment is
flagged with `kNoLevel`. -/
def GetIndent (st : PState) : Nat × Indent :=
  let r := GetIndentGo st.input (st.endPos - st.pos) st.pos 0 false
  let c := chAt st.input r.1
  let lvl := if c = '\r' || c = '\n' || c = '#' then kNoLevel else r.2.1
  (r.1, ⟨lvl, r.2.2⟩)

/-- The once-per-line indentation handling at the head of the `Parse`
loop: compare the computed level with the top of the stack and push or
pop accordingly. -/
def IndentPhase (st : PState) : Bool × PState :=
  let r := GetIndent st
  let st := { st with pos := r.1 }
  if r.2.level = kNoLevel then (true, st)
  else if topLevel st < r.2.level then (true, Push st r.2)
  else PopTo r.2.level st

/-- The space-skipping scan of `YamlParser::SkipSpaces`, starting one past
the cursor. -/
def SkipSpacesGo (input : List Char) : Nat → Nat → Nat
  | 0, pos => pos
  | n + 1, pos =>
    if chAt input pos = ' ' then SkipSpacesGo input n (pos + 1) else pos

/-- Embedding of `YamlParser::SkipSpaces`: advance past the current
character and any following spaces, then step back one; the column
counter follows with `size_t` wrap-around. -/
def SkipSpacesSt (st : PState) : PState :=
  let q := SkipSpacesGo st.input (st.endPos - (st.pos + 1)) (st.pos + 1)
  { st with
    pos := q - 1
    col := (st.col + (q - (st.pos + 1)) + (USizeMod - 1)) % USizeMod }

/-- The dash-consuming scan of `YamlParser::SkipStartDocument`, returning
the final cursor and the dash count. -/
def SkipStartDocumentGo (input : List Char) : Nat → Nat → Nat → Nat × Nat
  | 0, pos, cnt => (pos, cnt)
  | n + 1, pos, cnt =>
    if chAt input pos = '-' ∧ cnt < 3 then
      SkipStartDocumentGo input n (pos + 1) (cnt + 1)
    else (pos, cnt)

/-- Embedding of `YamlParser::SkipStartDocument`; note that `Parse`
discards its `dashCount == 3` result. -/
def SkipStartDocumentSt (st : PState) : PState :=
  let r := SkipStartDocumentGo st.input (st.endPos - (st.pos + 1)) (st.pos + 1) 1
  { st with pos := r.1, col := (st.col + r.2) % USizeMod }

/-- The comment/directive scan of `YamlParser::SkipLine`: stop one before
the next `\r` or `\n`, or at `end_`. -/
def SkipLineGo (input : List Char) : Nat → Nat → Nat
  | 0, pos => pos
  | n + 1, pos =>
    if chAt input pos = '\r' || chAt input pos = '\n' then pos - 1
    else SkipLineGo input n (pos + 1)

/-- Embedding of `YamlParser::PeekNext`. -/
def PeekNext (st : PState) : Char :=
  if st.endPos ≤ st.pos + 1 then Char.ofNat 0 else chAt st.input (st.pos + 1)

/-- Whitespace set `kIsWhite` of `YamlParser::IsNormalChar`. -/
def kIsWhite (c : Char) : Bool :=
  c = ' ' || c = '\r' || c = '\n' || c = Char.ofNat 0

/-- Peek at the character after position `p` (`PeekNext` relative to an
arbitrary scan position). -/
def peekAt (input : List Char) (endPos p : Nat) : Char :=
  if endPos ≤ p + 1 then Char.ofNat 0 else chAt input (p + 1)

/-- Embedding of `YamlParser::IsNormalChar` at scan position `p`: a colon
or comma not followed by whitespace is ordinary scalar content. -/
def IsNormalCharAt (input : List Char) (endPos p : Nat) : Bool :=
  let c := chAt input p
  if c = ':' || c = ',' then !kIsWhite (peekAt input endPos p) else false

/-- Terminator set `kEndScalar` of `YamlParser::ParsePlain`. -/
def kEndScalar (c : Char) : Bool :=
  c = ',' || c = ':' || c = '\t' || c = '\r' || c = '\n' ||
  c = ']' || c = '}' || c = '#'

/-- The terminator search of `ParsePlain`: the first position holding a
terminator that is not ordinary scalar content, or `none` at end of
input. -/
def FindScalarEnd (input : List Char) (endPos : Nat) : Nat → Nat → Option Nat
  | 0, _ => none
  | n + 1, p =>
    if kEndScalar (chAt input p) && !IsNormalCharAt input endPos p then some p
    else FindScalarEnd input endPos n (p + 1)

/-- Sub-buffer `[a, b)` of the input (`ExtractStr` without trimming). -/
def slice (input : List Char) (a b : Nat) : List Char := (input.take b).drop a

/-- Trailing-blank trimming of `ExtractStr`. -/
def trimRight (l : List Char) : List Char :=
  (l.reverse.dropWhile (fun c => c = ' ')).reverse

/-- Embedding of `YamlParser::OutputScalar`: classify the scalar as a key
(cursor on a colon) or a value, deliver the event, and step the cursor
back one. -/
def OutputScalar (h : Handler) (st : PState) (str : String) : Bool × PState :=
  let c := chAt st.input st.pos
  let st := { st with pos := st.pos - 1 }
  if c = ':' then
    let st := HandleMissingNull st
    let st := { st with complete := false }
    (h st.events (Event.key str), { st with events := st.events ++ [Event.key str] })
  else
    let st := { st with complete := true }
    (h st.events (Event.scalar str), { st with events := st.events ++ [Event.scalar str] })

/-- Embedding of `YamlParser::ParsePlain`. -/
def ParsePlain (h : Handler) (st : PState) : Bool × PState :=
  match FindScalarEnd st.input st.endPos (st.endPos - st.pos) st.pos with
  | some t =>
    let str := String.mk (trimRight (slice st.input st.pos t))
    OutputScalar h
      { st with pos := t, col := (st.col + (t - st.pos)) % USizeMod } str
  | none =>
    let str := String.mk (trimRight (slice st.input st.pos st.endPos))
    let st := { st with pos := st.endPos, complete := true }
    (h st.events (Event.scalar str),
     { st with events := st.events ++ [Event.scalar str] })

/-- The closing-quote search of `YamlParser::ParseQuoted`. -/
def FindQuote (input : List Char) (q : Char) : Nat → Nat → Option Nat
  | 0, _ => none
  | n + 1, p =>
    if chAt input p = q then some p else FindQuote input q n (p + 1)

/-- The structurally-important character set `kImportantChar` of
`ParseQuoted`. -/
def kImportant (c : Char) : Bool :=
  c = ':' || c = '\t' || c = '\r' || c = '\n' ||
  c = ',' || c = ']' || c = '}' || c = '#'

/-- Skip forward to the next structurally important character after a
closing quote. -/
def SkipToImportantGo (input : List Char) : Nat → Nat → Nat
  | 0, p => p
  | n + 1, p =>
    if kImportant (chAt input p) then p else SkipToImportantGo input n (p + 1)

/-- Embedding of `YamlParser::ParseQuoted`: verbatim content up to the
matching quote, then skip to the next important character to classify;
end of input inside the quotes is a fatal error whose message carries a
bounded preview of the scalar. -/
def ParseQuoted (h : Handler) (st : PState) (q : Char) : Bool × PState :=
  let startStr := st.pos + 1
  match FindQuote st.input q (st.endPos - startStr) startStr with
  | some qp =>
    let str := String.mk (slice st.input startStr qp)
    let r := SkipToImportantGo st.input (st.endPos - (qp + 1)) (qp + 1)
    OutputScalar h
      { st with pos := r, col := (st.col + (r - startStr) + 2) % USizeMod } str
  | none =>
    let preview := String.mk (slice st.input (startStr - 1) (min st.endPos (startStr + 12)))
    (false, ErrorSt { st with pos := st.endPos }
      ("Unterminated quoted scalar <" ++ preview ++ "...>"))

/-- Embedding of `YamlParser::ParseNode`: dispatch to the quoted or plain
scalar scanner. -/
def ParseNode (h : Handler) (st : PState) : Bool × PState :=
  let c := chAt st.input st.pos
  if c = Char.ofNat 39 then ParseQuoted h st (Char.ofNat 39)
  else if c = '"' then ParseQuoted h st '"'
  else ParsePlain h st

/-- Result of one iteration of the `Parse` loop body: continue scanning,
or abort the parse (the `return false` paths). -/
inductive StepRes where
  | cont (st : PState)
  | abort (st : PState)
deriving DecidableEq

/-- The per-character dispatch of the `Parse` loop (the big `switch`). -/
def Dispatch (h : Handler) (st : PState) : StepRes :=
  let c := chAt st.input st.pos
  if c = '-' then
    if PeekNext st = ' ' then
      StepRes.cont (SkipSpacesSt { st with events := st.events ++ [Event.startMapping] })
    else if PeekNext st = '-' then
      StepRes.cont (SkipStartDocumentSt st)
    else
      if (ParseNode h st).1 then StepRes.cont (ParseNode h st).2
      else StepRes.abort (ParseNode h st).2
  else if c = ':' || c = ',' then
    StepRes.cont (SkipSpacesSt st)
  else if c = '[' then
    StepRes.cont (SkipSpacesSt
      { st with complete := true, events := st.events ++ [Event.startSequence] })
  else if c = ']' then
    let st := HandleMissingNull st
    StepRes.cont (SkipSpacesSt { st with events := st.events ++ [Event.endSequence] })
  else if c = '{' then
    StepRes.cont (SkipSpacesSt
      { st with complete := true, events := st.events ++ [Event.startMapping] })
  else if c = '}' then
    let st := HandleMissingNull st
    StepRes.cont (SkipSpacesSt { st with events := st.events ++ [Event.endMapping] })
  else if c = '#' || c = '%' then
    StepRes.cont { st with pos := SkipLineGo st.input (st.endPos - st.pos) st.pos }
  else if c = '\n' then
    StepRes.cont { st with line := st.line + 1, col := 0 }
  else if c = '\r' || c = ' ' then
    StepRes.cont st
  else if c = Char.ofNat 0 then
    StepRes.cont { st with endPos := st.pos }
  else if c = '\t' then
    StepRes.abort (ErrorSt st "Avoid tabs in YAML files")
  else if c = '|' || c = '>' || c = '?' || c = '&' || c = '*' || c = '!' ||
          c = '@' || c = Char.ofNat 96 then
    StepRes.abort (ErrorSt st (String.mk [c] ++ " directive not supported"))
  else
    if (ParseNode h st).1 then StepRes.cont (ParseNode h st).2
    else StepRes.abort (ParseNode h st).2

/-- One full iteration of the `Parse` loop body: the indentation check at
column 1, then the character dispatch. -/
def StepBody (h : Handler) (st : PState) : StepRes :=
  if st.col = 1 then
    if (IndentPhase st).1 then Dispatch h (IndentPhase st).2
    else StepRes.abort (IndentPhase st).2
  else Dispatch h st

/-- The `++curr_, ++col_` loop increment. -/
def Advance (st : PState) : PState :=
  { st with pos := st.pos + 1, col := (st.col + 1) % USizeMod }

/-- The `Parse` scanning loop, fuel-indexed: `none` means the fuel ran
out (never the case for the fuel `Parse` supplies), `Except.error` an
aborted parse, `Except.ok` a normally exhausted input. -/
def loopP (h : Handler) : Nat → PState → Option (Except PState PState)
  | 0, st =>
    if st.pos < st.endPos then none else some (Except.ok st)
  | n + 1, st =>
    if st.pos < st.endPos then
      match StepBody h st with
      | StepRes.abort st' => some (Except.error st')
      | StepRes.cont st' => loopP h n (Advance st')
    else some (Except.ok st)

/-- The final `while (yamlStack_.size() > 1) Pop()` unwinding. -/
def UnwindGo : Nat → PState → PState
  | 0, st => st
  | n + 1, st => if 1 < st.stack.length then UnwindGo n (Pop st).2 else st

/-- Unwind every frame above the sentinel root frame. -/
def Unwind (st : PState) : PState := UnwindGo st.stack.length st

/-- The parser state built by the `YamlParser` constructor, after the
initial `onStartDocument` of `Parse`. -/
def initState (input : List Char) : PState :=
  { input := input
    pos := 0
    endPos := input.length
    line := 1
    col := 0
    stack := [⟨0, false⟩]
    complete := true
    events := [Event.startDocument] }

/-- Embedding of `YamlParser::Parse`: emit `onStartDocument`, run the
scanning loop, and on normal exhaustion unwind the stack and emit
`onEndDocument`.  The fuel `input.length + 1` is sufficient (see
`loopP_total`), so the result is never `none`. -/
def Parse (h : Handler) (input : List Char) : Option (Bool × PState) :=
  match loopP h (input.length + 1) (initState input) with
  | none => none
  | some (Except.error st) => some (false, st)
  | some (Except.ok st) =>
    let st := Unwind st
    some (true, { st with events := st.events ++ [Event.endDocument] })

/-- The parse outcome and delivered event sequence. -/
def parseEvents (h : Handler) (input : List Char) : Option (Bool × List Event) :=
  (Parse h input).map fun r => (r.1, r.2.events)

/-- Levels strictly decreasing from the top (head) of the stack to the
bottom, i.e. strictly increasing from bottom to top. -/
def levelsDesc : List Indent → Bool
  | [] => true
  | [_] => true
  | a :: b :: rest => decide (b.level < a.level) && levelsDesc (b :: rest)

/-- The indent-stack invariant: the stack is nonempty, its levels are
strictly increasing from bottom to top, and the bottom frame is the
sentinel root frame with level 0. -/
def StackInv (st : PState) : Prop :=
  st.stack ≠ [] ∧ levelsDesc st.stack = true ∧
    (st.stack.getLastD ⟨1, false⟩).level = 0

instance (st : PState) : Decidable (StackInv st) := by
  unfold StackInv
  infer_instance

/-- An event list free of document-bracketing events. -/
def DocFree (l : List Event) : Prop :=
  ∀ e ∈ l, e ≠ Event.startDocument ∧ e ≠ Event.endDocument

/-- The state carried by either outcome of the scanning loop. -/
def exState : Except PState PState → PState
  | Except.ok st => st
  | Except.error st => st

end YamlParser

/-! ## Concrete parses used by the claims -/

namespace YamlParser

/-- C1: the spec claims the input `a:\n  b: 1\n  c: 2\n` yields
start-mapping, key("a"), start-mapping, key("b"), scalar("1"), key("c"),
scalar("2"), end-mapping, end-mapping, end-document.  The parser emits no
start/end-mapping events for the root level (the indent check never fires
on the first line and the sentinel frame is pushed without an event), so
only one start-mapping and one end-mapping are delivered: the claimed
event sequence is not produced, under either reading of the claimed list
(with or without the initial start-document event). -/
theorem C1_counterexample :
    parseEvents hTrue "a:\n  b: 1\n  c: 2\n".toList ≠
      some (true,
        [Event.startMapping, Event.key "a", Event.startMapping, Event.key "b",
         Event.scalar "1", Event.key "c", Event.scalar "2", Event.endMapping,
         Event.endMapping, Event.endDocument]) ∧
    parseEvents hTrue "a:\n  b: 1\n  c: 2\n".toList ≠
      some (true,
        [Event.startDocument, Event.startMapping, Event.key "a", Event.startMapping,
         Event.key "b", Event.scalar "1", Event.key "c", Event.scalar "2",
         Event.endMapping, Event.endMapping, Event.endDocument]) := by
  constructor <;> decide

/-- C1 (amended): the input `a:\n  b: 1\n  c: 2\n` parses successfully and
delivers exactly start-document, key("a"), start-mapping, key("b"),
scalar("1"), key("c"), scalar("2"), end-mapping, end-document: the
increase of indentation opens exactly one mapping and the dedent at end of
input closes it, while the root-level mapping produces no events. -/
theorem C1_indent_nesting :
    parseEvents hTrue "a:\n  b: 1\n  c: 2\n".toList =
      some (true,
        [Event.startDocument, Event.key "a", Event.startMapping, Event.key "b",
         Event.scalar "1", Event.key "c", Event.scalar "2", Event.endMapping,
         Event.endDocument]) := by
  decide

/-- C3: the spec claims the lone input `}` fails with an unbalanced-closure
error and emits no end-mapping event.  In fact the flow-closer arm of the
dispatch never consults the indent stack: the parse succeeds (first
component `true`), exactly one end-mapping event is delivered, and no
error event occurs. -/
theorem C3_counterexample :
    (parseEvents hTrue "\x7d".toList).map Prod.fst = some true ∧
    (parseEvents hTrue "\x7d".toList).map (fun r => r.2.count Event.endMapping) =
      some 1 := by
  constructor <;> decide

/-- C3 (amended): the lone input `}` parses successfully, delivering
start-document, end-mapping, end-document and no error event: flow
closers bypass the indent stack, so the unbalanced-closure error is not
raised. -/
theorem C3_flow_closer :
    parseEvents hTrue "\x7d".toList =
      some (true, [Event.startDocument, Event.endMapping, Event.endDocument]) := by
  decide

/-- C5: for the input `key:\n` the parser delivers start-document,
key("key"), end-document and succeeds: no synthetic onScalar("null")
event is delivered, because the end-of-input unwinding only invokes
`HandleMissingNull` while popping pushed frames and no frame was pushed.
The claim (and the spec's missing-value rule, which the code honours for
nested keys) requires a null event before the end of the document. -/
theorem C5_missing_null_eval :
    parseEvents hTrue "key:\n".toList =
      some (true, [Event.startDocument, Event.key "key", Event.endDocument]) := by
  decide

/-- C8: for the input `--x` (two dashes where the `---` document marker
was expected) the parse succeeds and delivers no error event:
`Parse` discards the `dashCount == 3` result of `SkipStartDocument`, so
the malformed-marker failure the claim requires never happens. -/
theorem C8_marker_eval :
    parseEvents hTrue "--x".toList =
      some (true, [Event.startDocument, Event.endDocument]) := by
  decide

/-- C6: the input `#\t` contains a tab outside any quoted scalar, yet the
parse succeeds with no error event: the comment arm skips to the end of
the line, consuming the tab without examining it.  This refutes the
claim for tabs at arbitrary positions. -/
theorem C6_counterexample :
    Char.ofNat 9 ∈ "#\t".toList ∧
    parseEvents hTrue "#\t".toList =
      some (true, [Event.startDocument, Event.endDocument]) := by
  constructor <;> decide

/-- C7: for the input `- a` the dispatch on `-` followed by a space emits
a start-mapping event, not the start-sequence event the claim requires:
the full event sequence is start-document, start-mapping, scalar("a"),
end-document, with no start-sequence event at all. -/
theorem C7_counterexample :
    parseEvents hTrue "- a".toList =
      some (true,
        [Event.startDocument, Event.startMapping, Event.scalar "a",
         Event.endDocument]) := by
  decide

end YamlParser

namespace Yaml

/-- C4: the spec claims the presence table records, for each distinct
byte, the first position at which it occurs, and that `firstSpecialPos`
is the minimum position holding a special byte.  For the scalar `:a:`
(bytes `[58, 97, 58]`) the byte at position 0 is special, yet the
reported first special position is 2: the table-building test
`firstPos == 0` lets the second occurrence of the position-0 byte
overwrite its entry. -/
theorem C4_counterexample :
    isSpecialByte ([58, 97, 58].getD 0 0) = true ∧
    (GetSpecialChars [58, 97, 58]).hasSpecialChars = true ∧
    (GetSpecialChars [58, 97, 58]).firstSpecialPos = 2 := by
  refine ⟨by decide, by decide, by decide⟩

end Yaml


/-! ## Encoder characterization -/

namespace Yaml

lemma occList_lb {l : List Nat} :
    ∀ (i b j : Nat), j ∈ occList l i b → i ≤ j := by
  induction l with
  | nil => intro i b j h; simp [occList] at h
  | cons a r ih =>
    intro i b j h
    by_cases hb : a % 256 = b
    · simp only [occList, if_pos hb, List.singleton_append, List.mem_cons] at h
      rcases h with rfl | h
      · exact Nat.le_refl _
      · exact Nat.le_trans (Nat.le_succ i) (ih _ _ _ h)
    · simp only [occList, if_neg hb, List.nil_append] at h
      exact Nat.le_trans (Nat.le_succ i) (ih _ _ _ h)

lemma occList_lt {l : List Nat} :
    ∀ (i b j : Nat), j ∈ occList l i b → j < i + l.length := by
  induction l with
  | nil => intro i b j h; simp [occList] at h
  | cons a r ih =>
    intro i b j h
    by_cases hb : a % 256 = b
    · simp only [occList, if_pos hb, List.singleton_append, List.mem_cons] at h
      rcases h with rfl | h
      · simp only [List.length_cons]; omega
      · have := ih _ _ _ h; simp only [List.length_cons]; omega
    · simp only [occList, if_neg hb, List.nil_append] at h
      have := ih _ _ _ h; simp only [List.length_cons]; omega

lemma occList_ne_nil {l : List Nat} :
    ∀ (i b : Nat), occList l i b ≠ [] ↔ b ∈ l.map (· % 256) := by
  induction l with
  | nil => intro i b; simp [occList]
  | cons a r ih =>
    intro i b
    by_cases hb : a % 256 = b
    · constructor
      · intro _
        simp only [List.map_cons, List.mem_cons]
        exact Or.inl hb.symm
      · intro _
        simp [occList, hb]
    · simp only [occList, if_neg hb, List.nil_append, List.map_cons,
        List.mem_cons]
      rw [ih _ _]
      constructor
      · exact Or.inr
      · rintro (h | h)
        · exact absurd h.symm hb
        · exact h

lemma buildGo_apply (l : List Nat) :
    ∀ (i : Nat) (t : Nat → Letter) (b : Nat),
      buildGo l i t b = List.foldl stepLetter (t b) (occList l i b) := by
  induction l with
  | nil => intro i t b; simp [buildGo, occList]
  | cons a r ih =>
    intro i t b
    show buildGo r (i + 1)
        (if (t (a % 256)).firstPos = 0 then
          Function.update t (a % 256) ⟨i, true⟩ else t) b = _
    rw [ih]
    by_cases hb : a % 256 = b
    · subst hb
      by_cases h0 : (t (a % 256)).firstPos = 0
      · simp [occList, h0, Function.update_same, stepLetter]
      · simp [occList, h0, stepLetter]
    · have harg :
        (if (t (a % 256)).firstPos = 0 then
          Function.update t (a % 256) ⟨i, true⟩ else t) b = t b := by
        by_cases h0 : (t (a % 256)).firstPos = 0
        · simp [h0, Function.update_noteq (fun h => hb h.symm)]
        · simp [h0]
      rw [harg]
      simp [occList, hb]

lemma stepLetter_frozen {L : Letter} (hL : L.firstPos ≠ 0) (l : List Nat) :
    List.foldl stepLetter L l = L := by
  induction l with
  | nil => rfl
  | cons a r ih => simp [stepLetter, hL, ih]

lemma occList_head_zero {l : List Nat} {b k : Nat} {r : List Nat}
    (h : occList l 0 b = 0 :: k :: r) : 1 ≤ k := by
  cases l with
  | nil => simp [occList] at h
  | cons a rest =>
    by_cases hb : a % 256 = b
    · rw [occList, if_pos hb, List.singleton_append] at h
      have h2 : occList rest 1 b = k :: r := by
        exact (List.cons.injEq _ _ _ _ ▸ h).2
      have hk : k ∈ occList rest 1 b := by
        rw [h2]; exact List.mem_cons_self _ _
      exact occList_lb _ _ _ hk
    · rw [occList, if_neg hb, List.nil_append] at h
      have h0 : (0 : Nat) ∈ occList rest 1 b := by
        rw [h]; exact List.mem_cons_self _ _
      have := occList_lb _ _ _ h0
      omega

lemma foundSpec_iff {s : List Nat} {b : Nat} :
    foundSpec s b = true ↔ b ∈ s.map (· % 256) := by
  unfold foundSpec
  exact List.elem_iff

lemma buildTable_eq (s : List Nat) (b : Nat) :
    buildTable s b = ⟨firstPosSpec s b, foundSpec s b⟩ := by
  unfold buildTable firstPosSpec
  rw [buildGo_apply]
  rcases hocc : occList s 0 b with _ | ⟨j, rest⟩
  · have hmem : b ∉ s.map (· % 256) := fun hm =>
      ((occList_ne_nil 0 b).mpr hm) hocc
    have hf : foundSpec s b = false := by
      cases hfound : foundSpec s b with
      | false => rfl
      | true => exact absurd (foundSpec_iff.mp hfound) hmem
    simp [hocc, hf]
  · have hf : foundSpec s b = true := by
      rw [foundSpec_iff, ← occList_ne_nil 0 b]
      simp [hocc]
    rw [hf]
    by_cases hj : j = 0
    · subst hj
      rcases rest with _ | ⟨k, r⟩
      · simp [stepLetter, List.find?]
      · have hk : k ≠ 0 := by
          have := occList_head_zero hocc
          omega
        have h1 : List.foldl stepLetter (⟨0, false⟩ : Letter) (0 :: k :: r) =
            List.foldl stepLetter (⟨k, true⟩ : Letter) r := by
          simp [stepLetter]
        rw [h1, stepLetter_frozen hk]
        simp [List.find?, hk]
    · have h1 : List.foldl stepLetter (⟨0, false⟩ : Letter) (j :: rest) =
          List.foldl stepLetter (⟨j, true⟩ : Letter) rest := by
        simp [stepLetter]
      rw [h1, stepLetter_frozen hj]
      simp [List.find?, hj]

end Yaml

namespace Yaml

lemma scanGo_eq (t : Nat → Letter) (l : List Nat) :
    ∀ a f d, scanGo t l (a, f, d) =
      (l.foldl (lowStep t) a, l.foldl (quoteStep t 39) f,
       l.foldl (quoteStep t 34) d) := by
  induction l with
  | nil => intro a f d; simp [scanGo]
  | cons c r ih =>
    intro a f d
    simp only [scanGo, List.foldl_cons]
    by_cases hfound : (t c).found = true
    · rw [if_pos hfound]
      have hlow : (if isSpecialByte c then
          (if (t c).firstPos < a then (t c).firstPos else a) else a) =
          lowStep t a c := by
        unfold lowStep
        rw [hfound]
        by_cases h1 : isSpecialByte c <;> by_cases h2 : (t c).firstPos < a <;>
          simp [h1, h2]
      have hfsq : (if c = 39 then (t c).firstPos else f) = quoteStep t 39 f c := by
        unfold quoteStep
        rw [hfound]
        by_cases h1 : c = 39 <;> simp [h1]
      have hfdq : (if c = 34 then (t c).firstPos else d) = quoteStep t 34 d c := by
        unfold quoteStep
        rw [hfound]
        by_cases h1 : c = 34 <;> simp [h1]
      rw [hlow, hfsq, hfdq, ih]
    · rw [if_neg hfound, ih]
      have hfF : (t c).found = false := by
        cases hgg : (t c).found with
        | false => rfl
        | true => exact absurd hgg hfound
      simp [lowStep, quoteStep, hfF]

lemma foldl_lowStep_le (t : Nat → Letter) (l : List Nat) :
    ∀ a, l.foldl (lowStep t) a ≤ a := by
  induction l with
  | nil => intro a; exact Nat.le_refl a
  | cons c r ih =>
    intro a
    have h1 : lowStep t a c ≤ a := by
      unfold lowStep
      split_ifs with h
      · simp only [Bool.and_eq_true, decide_eq_true_eq] at h
        omega
      · exact Nat.le_refl a
    exact Nat.le_trans (ih _) h1

lemma foldl_lowStep_le_mem (t : Nat → Letter) (l : List Nat) :
    ∀ a c, c ∈ l → (t c).found = true → isSpecialByte c = true →
      l.foldl (lowStep t) a ≤ (t c).firstPos := by
  induction l with
  | nil => intro a c hc; exact absurd hc (List.not_mem_nil c)
  | cons e r ih =>
    intro a c hc hf hs
    rcases List.mem_cons.mp hc with rfl | hc'
    · have h1 : lowStep t a c ≤ (t c).firstPos := by
        unfold lowStep
        split_ifs with h
        · exact Nat.le_refl _
        · simp only [Bool.and_eq_true, decide_eq_true_eq, hf, hs,
            true_and] at h
          omega
      exact Nat.le_trans (foldl_lowStep_le t r _) h1
    · exact ih _ _ hc' hf hs

lemma foldl_lowStep_const (t : Nat → Letter) (l : List Nat) :
    ∀ a, (∀ c ∈ l, ¬((t c).found = true ∧ isSpecialByte c = true)) →
      l.foldl (lowStep t) a = a := by
  induction l with
  | nil => intro a _; rfl
  | cons e r ih =>
    intro a hyp
    have h1 : lowStep t a e = a := by
      unfold lowStep
      rw [if_neg]
      intro h
      simp only [Bool.and_eq_true, decide_eq_true_eq] at h
      exact hyp e (List.mem_cons_self _ _) ⟨h.1.1, h.1.2⟩
    rw [List.foldl_cons, h1]
    exact ih a (fun c hc => hyp c (List.mem_cons_of_mem _ hc))

lemma foldl_lowStep_eq_minFold (t : Nat → Letter) (l : List Nat) :
    ∀ a, l.foldl (lowStep t) a =
      ((l.filter (fun c => (t c).found && isSpecialByte c)).map
        (fun c => (t c).firstPos)).foldl min a := by
  induction l with
  | nil => intro a; rfl
  | cons c r ih =>
    intro a
    by_cases hP : ((t c).found && isSpecialByte c) = true
    · have hfil : List.filter (fun c => (t c).found && isSpecialByte c) (c :: r) =
          c :: List.filter (fun c => (t c).found && isSpecialByte c) r := by
        simp [List.filter_cons, hP]
      rw [List.foldl_cons, ih, hfil, List.map_cons, List.foldl_cons]
      congr 1
      unfold lowStep
      simp only [Bool.and_eq_true] at hP
      simp only [hP.1, hP.2, Bool.true_and, decide_eq_true_eq]
      split_ifs <;> omega
    · have hfil : List.filter (fun c => (t c).found && isSpecialByte c) (c :: r) =
          List.filter (fun c => (t c).found && isSpecialByte c) r := by
        simp [List.filter_cons, hP]
      rw [List.foldl_cons, ih, hfil]
      congr 1
      unfold lowStep
      rw [if_neg]
      intro h
      simp only [Bool.and_eq_true, decide_eq_true_eq] at h hP
      exact hP ⟨h.1.1, h.1.2⟩

lemma foldl_quoteStep (t : Nat → Letter) (q : Nat) (l : List Nat) :
    ∀ a, l.foldl (quoteStep t q) a =
      if q ∈ l ∧ (t q).found = true then (t q).firstPos else a := by
  induction l with
  | nil => intro a; simp
  | cons c r ih =>
    intro a
    rw [List.foldl_cons, ih]
    by_cases hc : c = q
    · subst hc
      by_cases hf : (t c).found = true
      · have h1 : quoteStep t c a c = (t c).firstPos := by
          unfold quoteStep; simp [hf]
        rw [h1]
        by_cases hm : c ∈ r <;> simp [hm, hf]
      · have h1 : quoteStep t c a c = a := by
          unfold quoteStep
          rw [if_neg]
          intro h
          simp only [Bool.and_eq_true] at h
          exact hf h.1
        rw [h1]
        simp [hf]
    · have h1 : quoteStep t q a c = a := by
        unfold quoteStep
        rw [if_neg]
        intro h
        simp only [Bool.and_eq_true, decide_eq_true_eq] at h
        exact hc h.2
      rw [h1]
      have hmq : (q ∈ c :: r) ↔ (q ∈ r) := by
        simp only [List.mem_cons]
        constructor
        · rintro (h | h)
          · exact absurd h.symm hc
          · exact h
        · exact Or.inr
      by_cases hm : q ∈ r ∧ (t q).found = true
      · rw [if_pos hm, if_pos ⟨hmq.mpr hm.1, hm.2⟩]
      · rw [if_neg hm, if_neg (fun h => hm ⟨hmq.mp h.1, h.2⟩)]

lemma firstPosSpec_lt_length {s : List Nat} {b : Nat}
    (h : foundSpec s b = true) : firstPosSpec s b < s.length := by
  have hocc : occList s 0 b ≠ [] := (occList_ne_nil 0 b).mpr (foundSpec_iff.mp h)
  unfold firstPosSpec
  rcases hfind : (occList s 0 b).find? (fun j => decide (j ≠ 0)) with _ | j
  · simp only [Option.getD_none]
    rcases List.exists_mem_of_ne_nil _ hocc with ⟨j, hj⟩
    have := occList_lt 0 b j hj
    omega
  · simp only [Option.getD_some]
    have hm : j ∈ occList s 0 b := List.mem_of_find?_eq_some hfind
    have := occList_lt 0 b j hm
    omega

lemma mem_map_mod_lt {s : List Nat} {c : Nat} (h : c ∈ s.map (· % 256)) :
    c < 256 := by
  rcases List.mem_map.mp h with ⟨b, _, rfl⟩
  exact Nat.mod_lt _ (by omega)

lemma foldl_min_le_init (l : List Nat) : ∀ a, l.foldl min a ≤ a := by
  induction l with
  | nil => intro a; exact Nat.le_refl a
  | cons c r ih =>
    intro a
    exact Nat.le_trans (ih _) (min_le_left a c)

lemma foldl_min_le_mem (l : List Nat) :
    ∀ a x, x ∈ l → l.foldl min a ≤ x := by
  induction l with
  | nil => intro a x hx; exact absurd hx (List.not_mem_nil x)
  | cons c r ih =>
    intro a x hx
    rcases List.mem_cons.mp hx with rfl | hx'
    · exact Nat.le_trans (foldl_min_le_init r _) (min_le_right a x)
    · exact ih _ _ hx'

lemma foldl_min_cases (l : List Nat) :
    ∀ a, l.foldl min a = a ∨ l.foldl min a ∈ l := by
  induction l with
  | nil => intro a; exact Or.inl rfl
  | cons c r ih =>
    intro a
    rcases ih (min a c) with h | h
    · rw [List.foldl_cons, h]
      rcases Nat.le_total a c with hle | hle
      · left
        omega
      · right
        have hmm : min a c = c := by omega
        rw [hmm]
        exact List.mem_cons_self c r
    · rw [List.foldl_cons]
      exact Or.inr (List.mem_cons_of_mem c h)

lemma foldl_min_congr {l₁ l₂ : List Nat} (h : ∀ x, x ∈ l₁ ↔ x ∈ l₂) (a : Nat) :
    l₁.foldl min a = l₂.foldl min a := by
  apply Nat.le_antisymm
  · rcases foldl_min_cases l₂ a with h2 | h2
    · rw [h2]; exact foldl_min_le_init l₁ a
    · exact foldl_min_le_mem l₁ a _ ((h _).mpr h2)
  · rcases foldl_min_cases l₁ a with h1 | h1
    · rw [h1]; exact foldl_min_le_init l₂ a
    · exact foldl_min_le_mem l₂ a _ ((h _).mp h1)

end Yaml

namespace Yaml

lemma buildTable_found (s : List Nat) (b : Nat) :
    (buildTable s b).found = foundSpec s b := by
  rw [buildTable_eq]

lemma buildTable_firstPos (s : List Nat) (b : Nat) :
    (buildTable s b).firstPos = firstPosSpec s b := by
  rw [buildTable_eq]

lemma scan_result (s : List Nat) :
    scanGo (buildTable s) (List.range 256)
        (kInvalidPos, kInvalidPos, kInvalidPos) =
      (minFold ((((s.map (· % 256)).dedup.filter isSpecialByte)).map
          (firstPosSpec s)),
       if foundSpec s 39 then firstPosSpec s 39 else kInvalidPos,
       if foundSpec s 34 then firstPosSpec s 34 else kInvalidPos) := by
  rw [scanGo_eq]
  have h39 : (39 : Nat) ∈ List.range 256 := by decide
  have h34 : (34 : Nat) ∈ List.range 256 := by decide
  have hfsq : (List.range 256).foldl (quoteStep (buildTable s) 39) kInvalidPos =
      if foundSpec s 39 then firstPosSpec s 39 else kInvalidPos := by
    rw [foldl_quoteStep]
    by_cases hf : foundSpec s 39 = true
    · rw [if_pos ⟨h39, by rw [buildTable_found]; exact hf⟩, if_pos hf,
        buildTable_firstPos]
    · rw [if_neg (fun h => hf (by rw [← buildTable_found]; exact h.2)),
        if_neg hf]
  have hfdq : (List.range 256).foldl (quoteStep (buildTable s) 34) kInvalidPos =
      if foundSpec s 34 then firstPosSpec s 34 else kInvalidPos := by
    rw [foldl_quoteStep]
    by_cases hf : foundSpec s 34 = true
    · rw [if_pos ⟨h34, by rw [buildTable_found]; exact hf⟩, if_pos hf,
        buildTable_firstPos]
    · rw [if_neg (fun h => hf (by rw [← buildTable_found]; exact h.2)),
        if_neg hf]
  have hlow : (List.range 256).foldl (lowStep (buildTable s)) kInvalidPos =
      minFold ((((s.map (· % 256)).dedup.filter isSpecialByte)).map
        (firstPosSpec s)) := by
    rw [foldl_lowStep_eq_minFold]
    unfold minFold
    apply foldl_min_congr
    intro x
    simp only [List.mem_map, List.mem_filter, List.mem_range, List.mem_dedup,
      Bool.and_eq_true, buildTable_found, buildTable_firstPos]
    constructor
    · rintro ⟨c, ⟨hc256, hfound, hspec⟩, hx⟩
      refine ⟨c, ⟨?_, hspec⟩, hx⟩
      have hmm := foundSpec_iff.mp hfound
      simpa using hmm
    · rintro ⟨c, ⟨hmem, hspec⟩, hx⟩
      refine ⟨c, ⟨?_, ?_, hspec⟩, hx⟩
      · rcases hmem with ⟨a, _, rfl⟩
        exact Nat.mod_lt _ (by omega)
      · rw [foundSpec_iff]
        simpa using hmem
  rw [hfsq, hfdq, hlow]

lemma getSpecialChars_eq (s : List Nat) (h1 : s ≠ []) (h2 : ¬ PreQuoted s)
    (hlen : s.length < kInvalidPos) : GetSpecialChars s = SpecialSpec s := by
  have hc : minFold ((((s.map (· % 256)).dedup.filter isSpecialByte)).map
      (firstPosSpec s)) = kInvalidPos ↔
      ((s.map (· % 256)).dedup.filter isSpecialByte) = [] := by
    constructor
    · intro hmin
      by_contra hne
      rcases List.exists_mem_of_ne_nil _ hne with ⟨c, hcmem⟩
      have hcb : c ∈ (s.map (· % 256)).dedup ∧ isSpecialByte c = true :=
        List.mem_filter.mp hcmem
      have hfound : foundSpec s c = true :=
        foundSpec_iff.mpr (List.mem_dedup.mp hcb.1)
      have hlt : firstPosSpec s c < kInvalidPos :=
        Nat.lt_trans (firstPosSpec_lt_length hfound) hlen
      have hle : minFold ((((s.map (· % 256)).dedup.filter isSpecialByte)).map
          (firstPosSpec s)) ≤ firstPosSpec s c := by
        apply foldl_min_le_mem
        exact List.mem_map.mpr ⟨c, hcmem, rfl⟩
      omega
    · intro hnil
      rw [hnil]
      rfl
  unfold GetSpecialChars SpecialSpec
  rw [if_neg h1, if_neg h2]
  simp only [scan_result s]
  by_cases hsp : ((s.map (· % 256)).dedup.filter isSpecialByte) = []
  · rw [if_pos (hc.mpr hsp), if_pos hsp]
  · rw [if_neg (fun hh => hsp (hc.mp hh)), if_neg hsp]

end Yaml

namespace Yaml

lemma map_mod_eq {s : List Nat} (hb : ∀ b ∈ s, b < 256) :
    s.map (· % 256) = s := by
  induction s with
  | nil => rfl
  | cons a r ih =>
    simp only [List.map_cons]
    rw [Nat.mod_eq_of_lt (hb a (List.mem_cons_self a r)),
      ih (fun b h => hb b (List.mem_cons_of_mem a h))]

lemma isSpecialByte_false_iff {b : Nat} :
    isSpecialByte b = false ↔ (32 ≤ b ∧ b ≤ 122 ∧ b ∉ specialSet) := by
  have hcont : specialSet.contains b = true ↔ b ∈ specialSet := List.elem_iff
  unfold isSpecialByte
  constructor
  · intro h
    simp only [Bool.or_eq_false_iff, decide_eq_false_iff_not, Nat.not_lt] at h
    refine ⟨h.1.1, h.1.2, fun hm => ?_⟩
    have h2 := h.2
    rw [hcont.mpr hm] at h2
    exact Bool.noConfusion h2
  · rintro ⟨h1, h2, h3⟩
    have hc : specialSet.contains b = false := by
      cases hcc : specialSet.contains b with
      | false => rfl
      | true => exact absurd (hcont.mp hcc) h3
    simp only [hc, Bool.or_eq_false_iff, decide_eq_false_iff_not, Nat.not_lt]
    exact ⟨⟨by omega, by omega⟩, trivial⟩

/-- C4 (amended): for every nonempty scalar that is not treated as
pre-quoted (and of representable length), `GetSpecialChars` computes the
spec-side analysis in which the table records, for each distinct byte,
the first nonzero position at which it occurs (0 when position 0 is its
only occurrence), `firstSpecialPos` is the minimum recorded position
among the distinct special bytes, and the quote fields are the recorded
positions of the quote bytes when present. -/
theorem C4_table_characterization (s : List Nat) (h1 : s ≠ [])
    (h2 : ¬ PreQuoted s) (hlen : s.length < kInvalidPos) :
    GetSpecialChars s = SpecialSpec s :=
  getSpecialChars_eq s h1 h2 hlen

/-- C4 witness: the amended characterization evaluated at the scalar
`:a:`. -/
theorem C4_table_characterization_witness :
    ([58, 97, 58] : List Nat) ≠ [] ∧ ¬ PreQuoted [58, 97, 58] ∧
    ([58, 97, 58] : List Nat).length < kInvalidPos ∧
    GetSpecialChars [58, 97, 58] = SpecialSpec [58, 97, 58] :=
  ⟨by decide, by decide, by decide,
    C4_table_characterization [58, 97, 58] (by decide) (by decide) (by decide)⟩

/-- C2: for every byte scalar that is not pre-quoted and does not mix the
two quote characters, `CreateSafeScalar` is the identity exactly when the
scalar is empty or all its bytes are in `[0x20, 0x7A]` and outside the
special-punctuation set; otherwise the scalar is wrapped on both ends in
one quote byte, the single quote by default and the double quote if and
only if the scalar contains a single quote, with no internal escaping. -/
theorem C2_CreateSafeScalar (s : List Nat) (hb : ∀ b ∈ s, b < 256)
    (hlen : s.length < kInvalidPos) (hpre : ¬ PreQuoted s)
    (hmix : ¬ (39 ∈ s ∧ 34 ∈ s)) :
    ((s = [] ∨ ∀ b ∈ s, 32 ≤ b ∧ b ≤ 122 ∧ b ∉ specialSet) →
      CreateSafeScalar s = s) ∧
    (¬ (s = [] ∨ ∀ b ∈ s, 32 ≤ b ∧ b ≤ 122 ∧ b ∉ specialSet) →
      CreateSafeScalar s =
        (if 39 ∈ s then 34 else 39) :: (s ++ [if 39 ∈ s then 34 else 39])) := by
  have hmap := map_mod_eq hb
  constructor
  · intro hgood
    rcases eq_or_ne s [] with rfl | hne
    · decide
    · have hall : ∀ b ∈ s, 32 ≤ b ∧ b ≤ 122 ∧ b ∉ specialSet := by
        rcases hgood with h | h
        · exact absurd h hne
        · exact h
      have hsp : ((s.map (· % 256)).dedup.filter isSpecialByte) = [] := by
        rw [hmap, List.filter_eq_nil_iff]
        intro c hc
        have hcs := List.mem_dedup.mp hc
        have hfalse : isSpecialByte c = false :=
          isSpecialByte_false_iff.mpr (hall c hcs)
        simp [hfalse]
      unfold CreateSafeScalar
      rw [getSpecialChars_eq s hne hpre hlen]
      unfold SpecialSpec
      rw [if_pos hsp]
      simp
  · intro hnot
    have hne : s ≠ [] := fun h => hnot (Or.inl h)
    have hex : ¬ ∀ b ∈ s, 32 ≤ b ∧ b ≤ 122 ∧ b ∉ specialSet :=
      fun h => hnot (Or.inr h)
    obtain ⟨b0, hb0mem, hb0⟩ : ∃ b ∈ s, isSpecialByte b = true := by
      by_contra hno
      apply hex
      intro b hbm
      cases hbb : isSpecialByte b with
      | true => exact absurd ⟨b, hbm, hbb⟩ hno
      | false => exact isSpecialByte_false_iff.mp hbb
    have hspne : ((s.map (· % 256)).dedup.filter isSpecialByte) ≠ [] := by
      rw [hmap]
      intro hnil
      have := List.filter_eq_nil_iff.mp hnil b0 (List.mem_dedup.mpr hb0mem)
      simp [hb0] at this
    have hfsq39 : foundSpec s 39 = true ↔ 39 ∈ s := by
      rw [foundSpec_iff, hmap]
    have hgs : GetSpecialChars s = SpecialSpec s :=
      getSpecialChars_eq s hne hpre hlen
    have hquote : (if (SpecialSpec s).hasSpecialChars then
        (if (SpecialSpec s).firstSingleQuote < kInvalidPos then (34 : Nat) else 39)
        else 0) = (if 39 ∈ s then 34 else 39) := by
      unfold SpecialSpec
      rw [if_neg hspne]
      by_cases h39 : 39 ∈ s
      · have hf : foundSpec s 39 = true := hfsq39.mpr h39
        have hlt : firstPosSpec s 39 < kInvalidPos :=
          Nat.lt_trans (firstPosSpec_lt_length hf) hlen
        show (if (if foundSpec s 39 = true then firstPosSpec s 39 else
            kInvalidPos) < kInvalidPos then (34 : Nat) else 39) = _
        rw [if_pos hf, if_pos hlt, if_pos h39]
      · have hf : foundSpec s 39 = false := by
          cases hff : foundSpec s 39 with
          | false => rfl
          | true => exact absurd (hfsq39.mp hff) h39
        show (if (if foundSpec s 39 = true then firstPosSpec s 39 else
            kInvalidPos) < kInvalidPos then (34 : Nat) else 39) = _
        have hinner : (if foundSpec s 39 = true then firstPosSpec s 39 else
            kInvalidPos) = kInvalidPos := by
          rw [if_neg]
          intro hh
          rw [hf] at hh
          exact Bool.noConfusion hh
        rw [hinner, if_neg (Nat.lt_irrefl _), if_neg h39]
    simp only [CreateSafeScalar, hgs, hquote]
    by_cases h39 : 39 ∈ s
    · rw [if_pos h39]
      simp
    · rw [if_neg h39]
      simp

/-- C2 witness: the quoting branch evaluated at the scalar `a:`, which
contains the special byte `:` and no single quote, hence is wrapped in
single quotes. -/
theorem C2_CreateSafeScalar_witness :
    (¬ PreQuoted [97, 58]) ∧
    (¬ (([97, 58] : List Nat) = [] ∨
        ∀ b ∈ ([97, 58] : List Nat), 32 ≤ b ∧ b ≤ 122 ∧ b ∉ specialSet)) ∧
    CreateSafeScalar [97, 58] =
      (if 39 ∈ ([97, 58] : List Nat) then 34 else 39) ::
        ([97, 58] ++ [if 39 ∈ ([97, 58] : List Nat) then 34 else 39]) :=
  ⟨by decide, by decide,
    (C2_CreateSafeScalar [97, 58] (by decide) (by decide) (by decide)
      (by decide)).2 (by decide)⟩

end Yaml

/-! ## Parser helper lemmas -/

namespace YamlParser

lemma docFree_nil : DocFree [] := fun e he => absurd he (List.not_mem_nil e)

lemma docFree_append {a b : List Event} (ha : DocFree a) (hb : DocFree b) :
    DocFree (a ++ b) := by
  intro e he
  rcases List.mem_append.mp he with h | h
  · exact ha e h
  · exact hb e h

lemma docFree_cons {e : Event} {l : List Event} (h1 : e ≠ Event.startDocument)
    (h2 : e ≠ Event.endDocument) (hl : DocFree l) : DocFree (e :: l) := by
  intro x hx
  rcases List.mem_cons.mp hx with rfl | hx'
  · exact ⟨h1, h2⟩
  · exact hl x hx'

lemma skipSpacesGo_ge (input : List Char) :
    ∀ n p, p ≤ SkipSpacesGo input n p := by
  intro n
  induction n with
  | zero => intro p; exact Nat.le_refl p
  | succ n ih =>
    intro p
    unfold SkipSpacesGo
    split_ifs with h
    · exact Nat.le_trans (Nat.le_succ p) (ih (p + 1))
    · exact Nat.le_refl p

lemma skipStartDocumentGo_ge (input : List Char) :
    ∀ n p cnt, p ≤ (SkipStartDocumentGo input n p cnt).1 := by
  intro n
  induction n with
  | zero => intro p cnt; exact Nat.le_refl p
  | succ n ih =>
    intro p cnt
    unfold SkipStartDocumentGo
    split_ifs with h
    · exact Nat.le_trans (Nat.le_succ p) (ih (p + 1) (cnt + 1))
    · exact Nat.le_refl p

lemma skipLineGo_ge_pred (input : List Char) :
    ∀ n p, p - 1 ≤ SkipLineGo input n p := by
  intro n
  induction n with
  | zero => intro p; simp only [SkipLineGo]; omega
  | succ n ih =>
    intro p
    unfold SkipLineGo
    split_ifs with h
    · exact Nat.le_refl _
    · have := ih (p + 1)
      omega

lemma skipLineGo_ge (input : List Char) (n p : Nat)
    (h : (chAt input p = '\r' || chAt input p = '\n') = false) :
    p ≤ SkipLineGo input n p := by
  cases n with
  | zero => exact Nat.le_refl p
  | succ n =>
    unfold SkipLineGo
    rw [if_neg (by simp [h])]
    have := skipLineGo_ge_pred input n (p + 1)
    omega

lemma getIndentGo_ge (input : List Char) :
    ∀ n p lvl sq, p ≤ (GetIndentGo input n p lvl sq).1 := by
  intro n
  induction n with
  | zero => intro p lvl sq; exact Nat.le_refl p
  | succ n ih =>
    intro p lvl sq
    simp only [GetIndentGo]
    split_ifs with h
    · exact Nat.le_trans (Nat.le_succ p) (ih (p + 1) (lvl + 1) _)
    · exact Nat.le_refl p

lemma getIndentGo_le (input : List Char) :
    ∀ n p lvl sq, (GetIndentGo input n p lvl sq).1 ≤ p + n := by
  intro n
  induction n with
  | zero => intro p lvl sq; exact Nat.le_refl p
  | succ n ih =>
    intro p lvl sq
    simp only [GetIndentGo]
    split_ifs with h
    · have := ih (p + 1) (lvl + 1) (sq || decide (chAt input p = '-'))
      omega
    · omega

lemma findScalarEnd_ge (input : List Char) (endPos : Nat) :
    ∀ n p t, FindScalarEnd input endPos n p = some t → p ≤ t := by
  intro n
  induction n with
  | zero => intro p t h; exact absurd h (by simp [FindScalarEnd])
  | succ n ih =>
    intro p t h
    unfold FindScalarEnd at h
    split_ifs at h with hc
    · exact Option.some.inj h ▸ Nat.le_refl p
    · exact Nat.le_trans (Nat.le_succ p) (ih (p + 1) t h)

lemma findScalarEnd_gt (input : List Char) (endPos : Nat) (n p t : Nat)
    (hk : kEndScalar (chAt input p) = false)
    (h : FindScalarEnd input endPos n p = some t) : p + 1 ≤ t := by
  cases n with
  | zero => exact absurd h (by simp [FindScalarEnd])
  | succ n =>
    unfold FindScalarEnd at h
    rw [if_neg (by simp [hk])] at h
    exact findScalarEnd_ge input endPos n (p + 1) t h

lemma findQuote_ge (input : List Char) (q : Char) :
    ∀ n p t, FindQuote input q n p = some t → p ≤ t := by
  intro n
  induction n with
  | zero => intro p t h; exact absurd h (by simp [FindQuote])
  | succ n ih =>
    intro p t h
    unfold FindQuote at h
    split_ifs at h with hc
    · exact Option.some.inj h ▸ Nat.le_refl p
    · exact Nat.le_trans (Nat.le_succ p) (ih (p + 1) t h)

lemma skipToImportantGo_ge (input : List Char) :
    ∀ n p, p ≤ SkipToImportantGo input n p := by
  intro n
  induction n with
  | zero => intro p; exact Nat.le_refl p
  | succ n ih =>
    intro p
    unfold SkipToImportantGo
    split_ifs with h
    · exact Nat.le_refl p
    · exact Nat.le_trans (Nat.le_succ p) (ih (p + 1))

lemma levelsDesc_tail {a : Indent} {l : List Indent}
    (h : levelsDesc (a :: l) = true) : levelsDesc l = true := by
  cases l with
  | nil => rfl
  | cons b t =>
    simp only [levelsDesc, Bool.and_eq_true] at h
    exact h.2

lemma getLastD_cons_cons (a b : Indent) (t : List Indent) (d : Indent) :
    (a :: b :: t).getLastD d = (b :: t).getLastD d := by
  simp [List.getLastD]

end YamlParser

namespace YamlParser

lemma skipSpacesSt_facts (st : PState) :
    (SkipSpacesSt st).input = st.input ∧ (SkipSpacesSt st).endPos = st.endPos ∧
    (SkipSpacesSt st).line = st.line ∧ (SkipSpacesSt st).stack = st.stack ∧
    (SkipSpacesSt st).complete = st.complete ∧
    (SkipSpacesSt st).events = st.events ∧ st.pos ≤ (SkipSpacesSt st).pos := by
  refine ⟨rfl, rfl, rfl, rfl, rfl, rfl, ?_⟩
  have := skipSpacesGo_ge st.input (st.endPos - (st.pos + 1)) (st.pos + 1)
  show st.pos ≤ SkipSpacesGo st.input (st.endPos - (st.pos + 1)) (st.pos + 1) - 1
  omega

lemma skipStartDocumentSt_facts (st : PState) :
    (SkipStartDocumentSt st).input = st.input ∧
    (SkipStartDocumentSt st).endPos = st.endPos ∧
    (SkipStartDocumentSt st).line = st.line ∧
    (SkipStartDocumentSt st).stack = st.stack ∧
    (SkipStartDocumentSt st).complete = st.complete ∧
    (SkipStartDocumentSt st).events = st.events ∧
    st.pos ≤ (SkipStartDocumentSt st).pos := by
  refine ⟨rfl, rfl, rfl, rfl, rfl, rfl, ?_⟩
  have := skipStartDocumentGo_ge st.input (st.endPos - (st.pos + 1)) (st.pos + 1) 1
  show st.pos ≤ (SkipStartDocumentGo st.input (st.endPos - (st.pos + 1))
    (st.pos + 1) 1).1
  omega

lemma errorSt_facts (st : PState) (msg : String) :
    (ErrorSt st msg).input = st.input ∧ (ErrorSt st msg).pos = st.pos ∧
    (ErrorSt st msg).endPos = st.endPos ∧ (ErrorSt st msg).line = st.line ∧
    (ErrorSt st msg).col = st.col ∧ (ErrorSt st msg).stack = st.stack ∧
    (ErrorSt st msg).complete = st.complete ∧
    (ErrorSt st msg).events = st.events ++ [Event.error msg st.line st.col] :=
  ⟨rfl, rfl, rfl, rfl, rfl, rfl, rfl, rfl⟩

lemma docFree_error (msg : String) (a b : Nat) :
    DocFree [Event.error msg a b] :=
  docFree_cons (by simp) (by simp) docFree_nil

lemma handleMissingNull_facts (st : PState) :
    (HandleMissingNull st).input = st.input ∧
    (HandleMissingNull st).pos = st.pos ∧
    (HandleMissingNull st).endPos = st.endPos ∧
    (HandleMissingNull st).line = st.line ∧
    (HandleMissingNull st).col = st.col ∧
    (HandleMissingNull st).stack = st.stack ∧
    ∃ Δ, (HandleMissingNull st).events = st.events ++ Δ ∧ DocFree Δ := by
  unfold HandleMissingNull
  split_ifs with h
  · exact ⟨rfl, rfl, rfl, rfl, rfl, rfl, [], by simp, docFree_nil⟩
  · exact ⟨rfl, rfl, rfl, rfl, rfl, rfl, [Event.scalar "null"], rfl,
      docFree_cons (by simp) (by simp) docFree_nil⟩

lemma push_facts (st : PState) (ind : Indent) :
    (Push st ind).input = st.input ∧ (Push st ind).pos = st.pos ∧
    (Push st ind).endPos = st.endPos ∧ (Push st ind).line = st.line ∧
    (Push st ind).col = st.col ∧ (Push st ind).stack = ind :: st.stack ∧
    ∃ Δ, (Push st ind).events = st.events ++ Δ ∧ DocFree Δ := by
  refine ⟨rfl, rfl, rfl, rfl, rfl, rfl,
    [if ind.isSequence then Event.startSequence else Event.startMapping],
    rfl, ?_⟩
  split_ifs <;> exact docFree_cons (by simp) (by simp) docFree_nil

lemma pop_facts (st : PState) :
    ((Pop st).2).input = st.input ∧ ((Pop st).2).pos = st.pos ∧
    ((Pop st).2).endPos = st.endPos ∧ ((Pop st).2).line = st.line ∧
    ((Pop st).2).col = st.col ∧
    (∃ Δ, ((Pop st).2).events = st.events ++ Δ ∧ DocFree Δ) ∧
    ((Pop st).1 = true → ((Pop st).2).stack = st.stack.tail ∧
      st.stack.length ≠ 1) ∧
    ((Pop st).1 = false →
      ∃ m lc cc, Event.error m lc cc ∈ ((Pop st).2).events) := by
  obtain ⟨hi, hp, he, hl, hc, hs, Δ, hev, hdf⟩ := handleMissingNull_facts st
  simp only [Pop]
  split_ifs with h hseq
  · refine ⟨rfl, rfl, rfl, rfl, rfl,
      ⟨[Event.error "Too many closing braces or brackets" st.line st.col],
        rfl, docFree_error _ _ _⟩, ?_, ?_⟩
    · intro hh; exact absurd hh (by simp)
    · intro _
      exact ⟨_, _, _, List.mem_append.mpr (Or.inr (List.mem_cons_self _ _))⟩
  · refine ⟨hi, hp, he, hl, hc,
      ⟨Δ ++ [Event.endSequence], ?_,
        docFree_append hdf (docFree_cons (by simp) (by simp) docFree_nil)⟩,
      ?_, ?_⟩
    · show (HandleMissingNull st).events ++ [Event.endSequence] =
        st.events ++ (Δ ++ [Event.endSequence])
      rw [hev, List.append_assoc]
    · intro _
      refine ⟨?_, h⟩
      show (HandleMissingNull st).stack.tail = st.stack.tail
      rw [hs]
    · intro hh; exact absurd hh (by simp)
  · refine ⟨hi, hp, he, hl, hc,
      ⟨Δ ++ [Event.endMapping], ?_,
        docFree_append hdf (docFree_cons (by simp) (by simp) docFree_nil)⟩,
      ?_, ?_⟩
    · show (HandleMissingNull st).events ++ [Event.endMapping] =
        st.events ++ (Δ ++ [Event.endMapping])
      rw [hev, List.append_assoc]
    · intro _
      refine ⟨?_, h⟩
      show (HandleMissingNull st).stack.tail = st.stack.tail
      rw [hs]
    · intro hh; exact absurd hh (by simp)

end YamlParser

namespace YamlParser

lemma popToGo_facts (lvl : Nat) :
    ∀ n (st : PState),
      ((PopToGo lvl n st).2).input = st.input ∧
      ((PopToGo lvl n st).2).pos = st.pos ∧
      ((PopToGo lvl n st).2).endPos = st.endPos ∧
      ((PopToGo lvl n st).2).line = st.line ∧
      ((PopToGo lvl n st).2).col = st.col ∧
      (∃ Δ, ((PopToGo lvl n st).2).events = st.events ++ Δ ∧ DocFree Δ) ∧
      ((PopToGo lvl n st).1 = false →
        ∃ m lc cc, Event.error m lc cc ∈ ((PopToGo lvl n st).2).events) := by
  intro n
  induction n with
  | zero =>
    intro st
    refine ⟨rfl, rfl, rfl, rfl, rfl, ⟨[], by simp [PopToGo], docFree_nil⟩, ?_⟩
    intro hh; exact absurd hh (by simp [PopToGo])
  | succ n ih =>
    intro st
    simp only [PopToGo]
    split_ifs with hlt hpop
    · obtain ⟨pi, pp, pe, pl, pc, ⟨Δ₁, pev, pdf⟩, _, _⟩ := pop_facts st
      obtain ⟨qi, qp, qe, ql, qc, ⟨Δ₂, qev, qdf⟩, qerr⟩ := ih (Pop st).2
      refine ⟨by rw [qi, pi], by rw [qp, pp], by rw [qe, pe],
        by rw [ql, pl], by rw [qc, pc],
        ⟨Δ₁ ++ Δ₂, by rw [qev, pev, List.append_assoc],
          docFree_append pdf qdf⟩, qerr⟩
    · obtain ⟨pi, pp, pe, pl, pc, ⟨Δ₁, pev, pdf⟩, _, perr⟩ := pop_facts st
      have hfalse : (Pop st).1 = false := by
        cases hb : (Pop st).1 with
        | false => rfl
        | true => exact absurd hb hpop
      refine ⟨pi, pp, pe, pl, pc, ⟨Δ₁, pev, pdf⟩, ?_⟩
      intro _
      exact perr hfalse
    · refine ⟨rfl, rfl, rfl, rfl, rfl, ⟨[], by simp, docFree_nil⟩, ?_⟩
      intro hh; exact absurd hh (by simp)

lemma getIndent_facts (st : PState) :
    st.pos ≤ (GetIndent st).1 ∧
    (GetIndent st).1 ≤ st.pos + (st.endPos - st.pos) := by
  unfold GetIndent
  exact ⟨getIndentGo_ge st.input _ st.pos 0 false,
    getIndentGo_le st.input _ st.pos 0 false⟩

lemma indentPhase_facts (st : PState) :
    ((IndentPhase st).2).input = st.input ∧
    ((IndentPhase st).2).endPos = st.endPos ∧
    ((IndentPhase st).2).line = st.line ∧
    ((IndentPhase st).2).col = st.col ∧
    st.pos ≤ ((IndentPhase st).2).pos ∧
    ((IndentPhase st).2).pos ≤ st.pos + (st.endPos - st.pos) ∧
    (∃ Δ, ((IndentPhase st).2).events = st.events ++ Δ ∧ DocFree Δ) ∧
    ((IndentPhase st).1 = false →
      ∃ m lc cc, Event.error m lc cc ∈ ((IndentPhase st).2).events) := by
  obtain ⟨hge, hle⟩ := getIndent_facts st
  simp only [IndentPhase, PopTo]
  split_ifs with h1 h2
  · refine ⟨rfl, rfl, rfl, rfl, hge, hle, ⟨[], by simp, docFree_nil⟩, ?_⟩
    intro hh; exact absurd hh (by simp)
  · obtain ⟨pi, pp, pe, pl, pc, ps, ⟨Δ, pev, pdf⟩⟩ :=
      push_facts { st with pos := (GetIndent st).1 } (GetIndent st).2
    exact ⟨pi, pe, pl, pc, by rw [pp]; exact hge, by rw [pp]; exact hle,
      ⟨Δ, pev, pdf⟩, fun hh => absurd hh (by simp)⟩
  · obtain ⟨qi, qp, qe, ql, qc, ⟨Δ, qev, qdf⟩, qerr⟩ :=
      popToGo_facts (GetIndent st).2.level
        ({ st with pos := (GetIndent st).1 } : PState).stack.length
        { st with pos := (GetIndent st).1 }
    exact ⟨qi, qe, ql, qc, by rw [qp]; exact hge, by rw [qp]; exact hle,
      ⟨Δ, qev, qdf⟩, qerr⟩

lemma outputScalar_facts (h : Handler) (st : PState) (str : String) :
    ((OutputScalar h st str).2).input = st.input ∧
    ((OutputScalar h st str).2).endPos = st.endPos ∧
    ((OutputScalar h st str).2).line = st.line ∧
    ((OutputScalar h st str).2).col = st.col ∧
    ((OutputScalar h st str).2).stack = st.stack ∧
    ((OutputScalar h st str).2).pos = st.pos - 1 ∧
    ∃ Δ, ((OutputScalar h st str).2).events = st.events ++ Δ ∧ DocFree Δ := by
  simp only [OutputScalar]
  split_ifs with hc
  · obtain ⟨mi, mp, me, ml, mc, ms, Δ, mev, mdf⟩ :=
      handleMissingNull_facts { st with pos := st.pos - 1 }
    refine ⟨mi, me, ml, mc, ms, mp, ⟨Δ ++ [Event.key str], ?_, ?_⟩⟩
    · show (HandleMissingNull { st with pos := st.pos - 1 }).events ++
        [Event.key str] = st.events ++ (Δ ++ [Event.key str])
      rw [mev, List.append_assoc]
    · exact docFree_append mdf (docFree_cons (by simp) (by simp) docFree_nil)
  · exact ⟨rfl, rfl, rfl, rfl, rfl, rfl, [Event.scalar str], rfl,
      docFree_cons (by simp) (by simp) docFree_nil⟩

end YamlParser

namespace YamlParser

lemma parsePlain_facts (h : Handler) (st : PState)
    (hk : kEndScalar (chAt st.input st.pos) = false)
    (hpe : st.pos ≤ st.endPos) :
    ((ParsePlain h st).2).input = st.input ∧
    ((ParsePlain h st).2).endPos = st.endPos ∧
    ((ParsePlain h st).2).line = st.line ∧
    ((ParsePlain h st).2).stack = st.stack ∧
    st.pos ≤ ((ParsePlain h st).2).pos ∧
    ∃ Δ, ((ParsePlain h st).2).events = st.events ++ Δ ∧ DocFree Δ := by
  simp only [ParsePlain]
  rcases hfind : FindScalarEnd st.input st.endPos (st.endPos - st.pos) st.pos
    with _ | t
  · exact ⟨rfl, rfl, rfl, rfl, hpe,
      [Event.scalar (String.mk (trimRight (slice st.input st.pos st.endPos)))],
      rfl, docFree_cons (by simp) (by simp) docFree_nil⟩
  · obtain ⟨oi, oe, ol, oc, os, op, Δ, oev, odf⟩ :=
      outputScalar_facts h
        { st with pos := t, col := (st.col + (t - st.pos)) % USizeMod }
        (String.mk (trimRight (slice st.input st.pos t)))
    have hge : st.pos + 1 ≤ t := findScalarEnd_gt st.input st.endPos _ _ _ hk hfind
    refine ⟨oi, oe, ol, os, ?_, Δ, oev, odf⟩
    rw [op]
    show st.pos ≤ t - 1
    omega

lemma parseQuoted_facts (h : Handler) (st : PState) (q : Char) :
    ((ParseQuoted h st q).2).input = st.input ∧
    ((ParseQuoted h st q).2).endPos = st.endPos ∧
    ((ParseQuoted h st q).2).line = st.line ∧
    ((ParseQuoted h st q).2).stack = st.stack ∧
    ((ParseQuoted h st q).1 = true → st.pos ≤ ((ParseQuoted h st q).2).pos) ∧
    ∃ Δ, ((ParseQuoted h st q).2).events = st.events ++ Δ ∧ DocFree Δ := by
  simp only [ParseQuoted]
  rcases hfind : FindQuote st.input q (st.endPos - (st.pos + 1)) (st.pos + 1)
    with _ | qp
  · refine ⟨rfl, rfl, rfl, rfl, ?_, ?_⟩
    · intro hh; exact absurd hh (by simp)
    · exact ⟨[Event.error ("Unterminated quoted scalar <" ++
        String.mk (slice st.input (st.pos + 1 - 1)
          (min st.endPos (st.pos + 1 + 12))) ++ "...>") st.line st.col],
        rfl, docFree_error _ _ _⟩
  · obtain ⟨oi, oe, ol, oc, os, op, Δ, oev, odf⟩ :=
      outputScalar_facts h
        { st with pos := SkipToImportantGo st.input (st.endPos - (qp + 1)) (qp + 1), col := (st.col + (SkipToImportantGo st.input (st.endPos - (qp + 1)) (qp + 1) - (st.pos + 1)) + 2) % USizeMod }
        (String.mk (slice st.input (st.pos + 1) qp))
    have h1 : st.pos + 1 ≤ qp := findQuote_ge st.input q _ _ _ hfind
    have h2 : qp + 1 ≤ SkipToImportantGo st.input (st.endPos - (qp + 1)) (qp + 1) :=
      skipToImportantGo_ge st.input _ _
    refine ⟨oi, oe, ol, os, ?_, Δ, oev, odf⟩
    intro _
    rw [op]
    show st.pos ≤ SkipToImportantGo st.input (st.endPos - (qp + 1)) (qp + 1) - 1
    omega

lemma parseNode_facts (h : Handler) (st : PState)
    (hk : kEndScalar (chAt st.input st.pos) = false)
    (hpe : st.pos ≤ st.endPos) :
    ((ParseNode h st).2).input = st.input ∧
    ((ParseNode h st).2).endPos = st.endPos ∧
    ((ParseNode h st).2).line = st.line ∧
    ((ParseNode h st).2).stack = st.stack ∧
    ((ParseNode h st).1 = true → st.pos ≤ ((ParseNode h st).2).pos) ∧
    ∃ Δ, ((ParseNode h st).2).events = st.events ++ Δ ∧ DocFree Δ := by
  simp only [ParseNode]
  split_ifs with h1 h2
  · exact parseQuoted_facts h st (Char.ofNat 39)
  · exact parseQuoted_facts h st '"'
  · obtain ⟨pi, pe, pl, ps, pp, hΔ⟩ := parsePlain_facts h st hk hpe
    exact ⟨pi, pe, pl, ps, fun _ => pp, hΔ⟩

end YamlParser

namespace YamlParser

lemma skipSpaces_branch {st stX : PState}
    (hin : stX.input = st.input) (hst : stX.stack = st.stack)
    (hend : stX.endPos = st.endPos) (hpos : stX.pos = st.pos)
    (hev : ∃ Δ, stX.events = st.events ++ Δ ∧ DocFree Δ) :
    ∀ st', StepRes.cont (SkipSpacesSt stX) = StepRes.cont st' →
      st'.input = st.input ∧ st'.stack = st.stack ∧ st'.endPos ≤ st.endPos ∧
      st.pos ≤ st'.pos ∧ ∃ Δ, st'.events = st.events ++ Δ ∧ DocFree Δ := by
  intro st' heq
  injection heq with heq
  subst heq
  obtain ⟨si, se, sl, ss, sc, sev, sp⟩ := skipSpacesSt_facts stX
  refine ⟨by rw [si, hin], by rw [ss, hst], by rw [se, hend], ?_, ?_⟩
  · rw [← hpos]; exact sp
  · obtain ⟨Δ, hΔ, hdf⟩ := hev
    exact ⟨Δ, by rw [sev, hΔ], hdf⟩

set_option maxHeartbeats 2000000 in
lemma dispatch_facts (h : Handler) (st : PState) (hpe : st.pos ≤ st.endPos) :
    (∀ st', Dispatch h st = StepRes.cont st' →
      st'.input = st.input ∧ st'.stack = st.stack ∧ st'.endPos ≤ st.endPos ∧
      st.pos ≤ st'.pos ∧ ∃ Δ, st'.events = st.events ++ Δ ∧ DocFree Δ) ∧
    (∀ st', Dispatch h st = StepRes.abort st' →
      st'.input = st.input ∧ st'.stack = st.stack ∧
      ∃ Δ, st'.events = st.events ++ Δ ∧ DocFree Δ) := by
  simp only [Dispatch]
  by_cases h1 : chAt st.input st.pos = '-'
  · rw [if_pos h1]
    by_cases h2 : PeekNext st = ' '
    · rw [if_pos h2]
      refine ⟨?_, fun st' heq => StepRes.noConfusion heq⟩
      exact skipSpaces_branch rfl rfl rfl rfl
        ⟨[Event.startMapping], rfl, docFree_cons (by simp) (by simp) docFree_nil⟩
    · rw [if_neg h2]
      by_cases h3 : PeekNext st = '-'
      · rw [if_pos h3]
        refine ⟨?_, fun st' heq => StepRes.noConfusion heq⟩
        intro st' heq
        injection heq with heq
        subst heq
        obtain ⟨si, se, sl, ss, sc, sev, sp⟩ := skipStartDocumentSt_facts st
        exact ⟨si, ss, Nat.le_of_eq se, sp, [], by rw [sev]; simp, docFree_nil⟩
      · rw [if_neg h3]
        have hk : kEndScalar (chAt st.input st.pos) = false := by
          rw [h1]; decide
        obtain ⟨pi, pe, pl, ps, pp, Δ, pev, pdf⟩ := parseNode_facts h st hk hpe
        by_cases h4 : (ParseNode h st).1 = true
        · rw [if_pos h4]
          refine ⟨?_, fun st' heq => StepRes.noConfusion heq⟩
          intro st' heq
          injection heq with heq
          subst heq
          exact ⟨pi, ps, Nat.le_of_eq pe, pp h4, Δ, pev, pdf⟩
        · rw [if_neg h4]
          refine ⟨fun st' heq => StepRes.noConfusion heq, ?_⟩
          intro st' heq
          injection heq with heq
          subst heq
          exact ⟨pi, ps, Δ, pev, pdf⟩
  · rw [if_neg h1]
    by_cases h5 : (chAt st.input st.pos = ':' || chAt st.input st.pos = ',') = true
    · rw [if_pos h5]
      refine ⟨?_, fun st' heq => StepRes.noConfusion heq⟩
      exact skipSpaces_branch rfl rfl rfl rfl ⟨[], by simp, docFree_nil⟩
    · rw [if_neg h5]
      by_cases h6 : chAt st.input st.pos = '['
      · rw [if_pos h6]
        refine ⟨?_, fun st' heq => StepRes.noConfusion heq⟩
        exact skipSpaces_branch rfl rfl rfl rfl
          ⟨[Event.startSequence], rfl,
            docFree_cons (by simp) (by simp) docFree_nil⟩
      · rw [if_neg h6]
        by_cases h7 : chAt st.input st.pos = ']'
        · rw [if_pos h7]
          refine ⟨?_, fun st' heq => StepRes.noConfusion heq⟩
          obtain ⟨mi, mp, me, ml, mc, ms, Δ, mev, mdf⟩ :=
            handleMissingNull_facts st
          exact @skipSpaces_branch st { HandleMissingNull st with
              events := (HandleMissingNull st).events ++ [Event.endSequence] }
            mi ms me mp
            ⟨Δ ++ [Event.endSequence],
              by show (HandleMissingNull st).events ++ [Event.endSequence] = _
                 rw [mev, List.append_assoc],
              docFree_append mdf
                (docFree_cons (by simp) (by simp) docFree_nil)⟩
        · rw [if_neg h7]
          by_cases h8 : chAt st.input st.pos = '{'
          · rw [if_pos h8]
            refine ⟨?_, fun st' heq => StepRes.noConfusion heq⟩
            exact skipSpaces_branch rfl rfl rfl rfl
              ⟨[Event.startMapping], rfl,
                docFree_cons (by simp) (by simp) docFree_nil⟩
          · rw [if_neg h8]
            by_cases h9 : chAt st.input st.pos = '}'
            · rw [if_pos h9]
              refine ⟨?_, fun st' heq => StepRes.noConfusion heq⟩
              obtain ⟨mi, mp, me, ml, mc, ms, Δ, mev, mdf⟩ :=
                handleMissingNull_facts st
              exact @skipSpaces_branch st { HandleMissingNull st with
                  events := (HandleMissingNull st).events ++ [Event.endMapping] }
                mi ms me mp
                ⟨Δ ++ [Event.endMapping],
                  by show (HandleMissingNull st).events ++ [Event.endMapping] = _
                     rw [mev, List.append_assoc],
                  docFree_append mdf
                    (docFree_cons (by simp) (by simp) docFree_nil)⟩
            · rw [if_neg h9]
              by_cases h10 : (chAt st.input st.pos = '#' ||
                  chAt st.input st.pos = '%') = true
              · rw [if_pos h10]
                refine ⟨?_, fun st' heq => StepRes.noConfusion heq⟩
                intro st' heq
                injection heq with heq
                subst heq
                have hc : chAt st.input st.pos = '#' ∨
                    chAt st.input st.pos = '%' := by simpa using h10
                have hnl : (chAt st.input st.pos = '\r' ||
                    chAt st.input st.pos = '\n') = false := by
                  rcases hc with hcc | hcc <;> rw [hcc] <;> decide
                exact ⟨rfl, rfl, Nat.le_refl _,
                  skipLineGo_ge st.input _ st.pos hnl, [], by simp, docFree_nil⟩
              · rw [if_neg h10]
                by_cases h11 : chAt st.input st.pos = '\n'
                · rw [if_pos h11]
                  refine ⟨?_, fun st' heq => StepRes.noConfusion heq⟩
                  intro st' heq
                  injection heq with heq
                  subst heq
                  exact ⟨rfl, rfl, Nat.le_refl _, Nat.le_refl _, [],
                    by simp, docFree_nil⟩
                · rw [if_neg h11]
                  by_cases h12 : (chAt st.input st.pos = '\r' ||
                      chAt st.input st.pos = ' ') = true
                  · rw [if_pos h12]
                    refine ⟨?_, fun st' heq => StepRes.noConfusion heq⟩
                    intro st' heq
                    injection heq with heq
                    subst heq
                    exact ⟨rfl, rfl, Nat.le_refl _, Nat.le_refl _, [],
                      by simp, docFree_nil⟩
                  · rw [if_neg h12]
                    by_cases h13 : chAt st.input st.pos = Char.ofNat 0
                    · rw [if_pos h13]
                      refine ⟨?_, fun st' heq => StepRes.noConfusion heq⟩
                      intro st' heq
                      injection heq with heq
                      subst heq
                      exact ⟨rfl, rfl, hpe, Nat.le_refl _, [],
                        by simp, docFree_nil⟩
                    · rw [if_neg h13]
                      by_cases h14 : chAt st.input st.pos = '\t'
                      · rw [if_pos h14]
                        refine ⟨fun st' heq => StepRes.noConfusion heq, ?_⟩
                        intro st' heq
                        injection heq with heq
                        subst heq
                        exact ⟨rfl, rfl,
                          [Event.error "Avoid tabs in YAML files"
                            st.line st.col], rfl, docFree_error _ _ _⟩
                      · rw [if_neg h14]
                        by_cases h15 : (chAt st.input st.pos = '|' ||
                            chAt st.input st.pos = '>' ||
                            chAt st.input st.pos = '?' ||
                            chAt st.input st.pos = '&' ||
                            chAt st.input st.pos = '*' ||
                            chAt st.input st.pos = '!' ||
                            chAt st.input st.pos = '@' ||
                            chAt st.input st.pos = Char.ofNat 96) = true
                        · rw [if_pos h15]
                          refine ⟨fun st' heq => StepRes.noConfusion heq, ?_⟩
                          intro st' heq
                          injection heq with heq
                          subst heq
                          exact ⟨rfl, rfl,
                            [Event.error (String.mk [chAt st.input st.pos] ++
                              " directive not supported") st.line st.col],
                            rfl, docFree_error _ _ _⟩
                        · rw [if_neg h15]
                          have n2 : chAt st.input st.pos ≠ ':' :=
                            fun hh => h5 (by simp [hh])
                          have n3 : chAt st.input st.pos ≠ ',' :=
                            fun hh => h5 (by simp [hh])
                          have n6 : chAt st.input st.pos ≠ '#' :=
                            fun hh => h10 (by simp [hh])
                          have n8 : chAt st.input st.pos ≠ '\r' :=
                            fun hh => h12 (by simp [hh])
                          have hk : kEndScalar (chAt st.input st.pos) = false := by
                            simp [kEndScalar, n2, n3, h7, h9, n6, h11, n8, h14]
                          obtain ⟨pi, pe, pl, ps, pp, Δ, pev, pdf⟩ :=
                            parseNode_facts h st hk hpe
                          by_cases h16 : (ParseNode h st).1 = true
                          · rw [if_pos h16]
                            refine ⟨?_, fun st' heq => StepRes.noConfusion heq⟩
                            intro st' heq
                            injection heq with heq
                            subst heq
                            exact ⟨pi, ps, Nat.le_of_eq pe, pp h16, Δ, pev, pdf⟩
                          · rw [if_neg h16]
                            refine ⟨fun st' heq => StepRes.noConfusion heq, ?_⟩
                            intro st' heq
                            injection heq with heq
                            subst heq
                            exact ⟨pi, ps, Δ, pev, pdf⟩

end YamlParser

namespace YamlParser

lemma stepBody_facts (h : Handler) (st : PState) (hlt : st.pos < st.endPos) :
    (∀ st', StepBody h st = StepRes.cont st' →
      st'.input = st.input ∧ st'.endPos ≤ st.endPos ∧ st.pos ≤ st'.pos ∧
      ∃ Δ, st'.events = st.events ++ Δ ∧ DocFree Δ) ∧
    (∀ st', StepBody h st = StepRes.abort st' →
      ∃ Δ, st'.events = st.events ++ Δ ∧ DocFree Δ) := by
  simp only [StepBody]
  by_cases hcol : st.col = 1
  · rw [if_pos hcol]
    obtain ⟨ii, ie, il, ic, ige, ile, ⟨Δ₁, iev, idf⟩, ierr⟩ := indentPhase_facts st
    by_cases hb : (IndentPhase st).1 = true
    · rw [if_pos hb]
      have hpe₂ : ((IndentPhase st).2).pos ≤ ((IndentPhase st).2).endPos := by
        rw [ie]; omega
      obtain ⟨dc, da⟩ := dispatch_facts h ((IndentPhase st).2) hpe₂
      constructor
      · intro st' heq
        obtain ⟨di, ds, de, dp, Δ₂, dev, ddf⟩ := dc st' heq
        refine ⟨by rw [di, ii], by rw [ie] at de; exact de,
          Nat.le_trans ige dp, Δ₁ ++ Δ₂, ?_, docFree_append idf ddf⟩
        rw [dev, iev, List.append_assoc]
      · intro st' heq
        obtain ⟨di, ds, Δ₂, dev, ddf⟩ := da st' heq
        exact ⟨Δ₁ ++ Δ₂, by rw [dev, iev, List.append_assoc],
          docFree_append idf ddf⟩
    · rw [if_neg hb]
      constructor
      · intro st' heq
        exact StepRes.noConfusion heq
      · intro st' heq
        injection heq with heq
        subst heq
        exact ⟨Δ₁, iev, idf⟩
  · rw [if_neg hcol]
    obtain ⟨dc, da⟩ := dispatch_facts h st (Nat.le_of_lt hlt)
    constructor
    · intro st' heq
      obtain ⟨di, ds, de, dp, Δ, dev, ddf⟩ := dc st' heq
      exact ⟨di, de, dp, Δ, dev, ddf⟩
    · intro st' heq
      obtain ⟨di, ds, Δ, dev, ddf⟩ := da st' heq
      exact ⟨Δ, dev, ddf⟩

lemma loopP_total (h : Handler) :
    ∀ n (st : PState), st.endPos - st.pos < n →
      ∃ r, loopP h n st = some r := by
  intro n
  induction n with
  | zero => intro st hst; omega
  | succ n ih =>
    intro st hst
    by_cases hlt : st.pos < st.endPos
    · obtain ⟨hc, ha⟩ := stepBody_facts h st hlt
      rcases hsb : StepBody h st with st₂ | st₂
      · obtain ⟨di, de, dp, _⟩ := hc st₂ hsb
        have hm : (Advance st₂).endPos - (Advance st₂).pos < n := by
          show st₂.endPos - (st₂.pos + 1) < n
          omega
        obtain ⟨r, hr⟩ := ih (Advance st₂) hm
        exact ⟨r, by simp only [loopP, hsb]; rw [if_pos hlt]; exact hr⟩
      · exact ⟨Except.error st₂, by simp only [loopP, hsb]; rw [if_pos hlt]⟩
    · exact ⟨Except.ok st, by simp only [loopP]; rw [if_neg hlt]⟩

lemma loopP_events (h : Handler) :
    ∀ n (st : PState) r, loopP h n st = some r →
      ∃ Δ, (exState r).events = st.events ++ Δ ∧ DocFree Δ := by
  intro n
  induction n with
  | zero =>
    intro st r hr
    simp only [loopP] at hr
    by_cases hlt : st.pos < st.endPos
    · rw [if_pos hlt] at hr
      exact absurd hr (by simp)
    · rw [if_neg hlt] at hr
      have : Except.ok st = r := Option.some.inj hr
      subst this
      exact ⟨[], by simp [exState], docFree_nil⟩
  | succ n ih =>
    intro st r hr
    simp only [loopP] at hr
    by_cases hlt : st.pos < st.endPos
    · rw [if_pos hlt] at hr
      obtain ⟨hc, ha⟩ := stepBody_facts h st hlt
      rcases hsb : StepBody h st with st₂ | st₂
      · rw [hsb] at hr
        obtain ⟨di, de, dp, Δ₁, dev, ddf⟩ := hc st₂ hsb
        obtain ⟨Δ₂, hev₂, hdf₂⟩ := ih (Advance st₂) r hr
        refine ⟨Δ₁ ++ Δ₂, ?_, docFree_append ddf hdf₂⟩
        have hadv : (Advance st₂).events = st₂.events := rfl
        rw [hev₂, hadv, dev, List.append_assoc]
      · rw [hsb] at hr
        have : Except.error st₂ = r := Option.some.inj hr
        subst this
        obtain ⟨Δ, dev, ddf⟩ := ha st₂ hsb
        exact ⟨Δ, by simp [exState, dev], ddf⟩
    · rw [if_neg hlt] at hr
      have : Except.ok st = r := Option.some.inj hr
      subst this
      exact ⟨[], by simp [exState], docFree_nil⟩

end YamlParser

namespace YamlParser

lemma unwindGo_events : ∀ n (st : PState),
    ∃ Δ, (UnwindGo n st).events = st.events ++ Δ ∧ DocFree Δ := by
  intro n
  induction n with
  | zero => intro st; exact ⟨[], by simp [UnwindGo], docFree_nil⟩
  | succ n ih =>
    intro st
    simp only [UnwindGo]
    split_ifs with hlen
    · obtain ⟨pi, pp, pe, pl, pc, ⟨Δ₁, pev, pdf⟩, _, _⟩ := pop_facts st
      obtain ⟨Δ₂, hev₂, hdf₂⟩ := ih (Pop st).2
      exact ⟨Δ₁ ++ Δ₂, by rw [hev₂, pev, List.append_assoc],
        docFree_append pdf hdf₂⟩
    · exact ⟨[], by simp, docFree_nil⟩

/-- C10: for every input and every deterministic handler, Parse delivers
onStartDocument exactly once and before any other event, and delivers
onEndDocument exactly once if and only if it returns success; on any
failed parse (fatal error or a callback returning false) onEndDocument is
never delivered, while the events already emitted are retained. -/
theorem C10_document_bracketing (input : List Char) (h : Handler) :
    ∃ b st, Parse h input = some (b, st) ∧
      st.events.head? = some Event.startDocument ∧
      Event.startDocument ∉ st.events.tail ∧
      st.events.count Event.endDocument = (if b then 1 else 0) := by
  have htot := loopP_total h (input.length + 1) (initState input)
    (by show input.length - 0 < input.length + 1; omega)
  obtain ⟨r, hr⟩ := htot
  obtain ⟨Δ, hev, hdf⟩ := loopP_events h _ _ _ hr
  cases r with
  | error stq =>
    have hevq : stq.events = Event.startDocument :: Δ := by
      have : (exState (Except.error stq)).events = stq.events := rfl
      rw [← this, hev]
      rfl
    refine ⟨false, stq, ?_, ?_, ?_, ?_⟩
    · simp only [Parse, hr]
    · rw [hevq]; rfl
    · rw [hevq]
      intro hmem
      exact (hdf _ hmem).1 rfl
    · rw [hevq]
      rw [List.count_cons]
      have hz : Δ.count Event.endDocument = 0 :=
        List.count_eq_zero.mpr (fun hmem => (hdf _ hmem).2 rfl)
      simp [hz]
  | ok stq =>
    have hevq : stq.events = Event.startDocument :: Δ := by
      have : (exState (Except.ok stq)).events = stq.events := rfl
      rw [← this, hev]
      rfl
    obtain ⟨Δ₂, hev₂, hdf₂⟩ := unwindGo_events stq.stack.length stq
    refine ⟨true, { Unwind stq with
      events := (Unwind stq).events ++ [Event.endDocument] }, ?_, ?_, ?_, ?_⟩
    · simp only [Parse, hr]
    · show ((Unwind stq).events ++ [Event.endDocument]).head? =
        some Event.startDocument
      show ((UnwindGo stq.stack.length stq).events ++
        [Event.endDocument]).head? = some Event.startDocument
      rw [hev₂, hevq]
      rfl
    · show Event.startDocument ∉
        ((Unwind stq).events ++ [Event.endDocument]).tail
      show Event.startDocument ∉
        ((UnwindGo stq.stack.length stq).events ++ [Event.endDocument]).tail
      rw [hev₂, hevq]
      show Event.startDocument ∉ (Δ ++ Δ₂) ++ [Event.endDocument]
      intro hmem
      rcases List.mem_append.mp hmem with hm | hm
      · rcases List.mem_append.mp hm with hm' | hm'
        · exact (hdf _ hm').1 rfl
        · exact (hdf₂ _ hm').1 rfl
      · simp at hm
    · show ((Unwind stq).events ++ [Event.endDocument]).count
        Event.endDocument = (if true then 1 else 0)
      show ((UnwindGo stq.stack.length stq).events ++
        [Event.endDocument]).count Event.endDocument = (if true then 1 else 0)
      rw [hev₂, hevq]
      have hz : Δ.count Event.endDocument = 0 :=
        List.count_eq_zero.mpr (fun hmem => (hdf _ hmem).2 rfl)
      have hz₂ : Δ₂.count Event.endDocument = 0 :=
        List.count_eq_zero.mpr (fun hmem => (hdf₂ _ hmem).2 rfl)
      simp [List.count_append, List.count_cons, hz, hz₂]

end YamlParser

namespace YamlParser

lemma getLastD_cons_of_ne_nil {l : List Indent} (x : Indent) (d : Indent)
    (hl : l ≠ []) : (x :: l).getLastD d = l.getLastD d := by
  cases l with
  | nil => exact absurd rfl hl
  | cons b t => exact getLastD_cons_cons x b t d

lemma stackInv_of_eq {st st' : PState} (hs : st'.stack = st.stack)
    (hInv : StackInv st) : StackInv st' := by
  obtain ⟨h1, h2, h3⟩ := hInv
  exact ⟨by rw [hs]; exact h1, by rw [hs]; exact h2, by rw [hs]; exact h3⟩

lemma pop_inv (st : PState) (hInv : StackInv st) : StackInv (Pop st).2 := by
  obtain ⟨h1, h2, h3⟩ := hInv
  simp only [Pop]
  split_ifs with hlen hseq
  · exact ⟨h1, h2, h3⟩
  · have hs : (HandleMissingNull st).stack = st.stack :=
      (handleMissingNull_facts st).2.2.2.2.2.1
    show StackInv _
    refine ⟨?_, ?_, ?_⟩
    · show (HandleMissingNull st).stack.tail ≠ []
      rw [hs]
      rcases hst : st.stack with _ | ⟨a, t⟩
      · exact absurd hst h1
      · rcases t with _ | ⟨b, t'⟩
        · exact (hlen (by rw [hst]; simp)).elim
        · simp
    · show levelsDesc (HandleMissingNull st).stack.tail = true
      rw [hs]
      rcases hst : st.stack with _ | ⟨a, t⟩
      · rfl
      · rw [hst] at h2
        exact levelsDesc_tail h2
    · show ((HandleMissingNull st).stack.tail.getLastD ⟨1, false⟩).level = 0
      rw [hs]
      rcases hst : st.stack with _ | ⟨a, t⟩
      · exact absurd hst h1
      · rcases t with _ | ⟨b, t'⟩
        · rw [hst] at hlen; exact absurd rfl hlen
        · rw [hst] at h3
          rw [getLastD_cons_cons a b t' ⟨1, false⟩] at h3
          exact h3
  · have hs : (HandleMissingNull st).stack = st.stack :=
      (handleMissingNull_facts st).2.2.2.2.2.1
    show StackInv _
    refine ⟨?_, ?_, ?_⟩
    · show (HandleMissingNull st).stack.tail ≠ []
      rw [hs]
      rcases hst : st.stack with _ | ⟨a, t⟩
      · exact absurd hst h1
      · rcases t with _ | ⟨b, t'⟩
        · exact (hlen (by rw [hst]; simp)).elim
        · simp
    · show levelsDesc (HandleMissingNull st).stack.tail = true
      rw [hs]
      rcases hst : st.stack with _ | ⟨a, t⟩
      · rfl
      · rw [hst] at h2
        exact levelsDesc_tail h2
    · show ((HandleMissingNull st).stack.tail.getLastD ⟨1, false⟩).level = 0
      rw [hs]
      rcases hst : st.stack with _ | ⟨a, t⟩
      · exact absurd hst h1
      · rcases t with _ | ⟨b, t'⟩
        · rw [hst] at hlen; exact absurd rfl hlen
        · rw [hst] at h3
          rw [getLastD_cons_cons a b t' ⟨1, false⟩] at h3
          exact h3

lemma popToGo_inv (lvl : Nat) : ∀ n (st : PState), StackInv st →
    StackInv (PopToGo lvl n st).2 := by
  intro n
  induction n with
  | zero => intro st hInv; exact hInv
  | succ n ih =>
    intro st hInv
    simp only [PopToGo]
    split_ifs with hlt hpop
    · exact ih (Pop st).2 (pop_inv st hInv)
    · exact pop_inv st hInv
    · exact hInv

lemma push_inv (st : PState) (ind : Indent) (hInv : StackInv st)
    (hgt : topLevel st < ind.level) : StackInv (Push st ind) := by
  obtain ⟨h1, h2, h3⟩ := hInv
  refine ⟨?_, ?_, ?_⟩
  · show ind :: st.stack ≠ []
    simp
  · show levelsDesc (ind :: st.stack) = true
    rcases hst : st.stack with _ | ⟨a, t⟩
    · rfl
    · show levelsDesc (ind :: a :: t) = true
      have ha : a.level < ind.level := by
        have : topLevel st = a.level := by
          unfold topLevel
          rw [hst]
          rfl
        rw [this] at hgt
        exact hgt
      rw [hst] at h2
      simp only [levelsDesc, Bool.and_eq_true, decide_eq_true_eq]
      exact ⟨ha, h2⟩
  · show ((ind :: st.stack).getLastD ⟨1, false⟩).level = 0
    rw [getLastD_cons_of_ne_nil ind ⟨1, false⟩ h1]
    exact h3

lemma indentPhase_inv (st : PState) (hInv : StackInv st) :
    StackInv (IndentPhase st).2 := by
  simp only [IndentPhase, PopTo]
  have hInv' : StackInv { st with pos := (GetIndent st).1 } :=
    stackInv_of_eq rfl hInv
  split_ifs with h1 h2
  · exact hInv'
  · refine push_inv _ _ hInv' ?_
    exact h2
  · exact popToGo_inv _ _ _ hInv'

lemma unwindGo_inv : ∀ n (st : PState), StackInv st →
    StackInv (UnwindGo n st) := by
  intro n
  induction n with
  | zero => intro st hInv; exact hInv
  | succ n ih =>
    intro st hInv
    simp only [UnwindGo]
    split_ifs with hlen
    · exact ih (Pop st).2 (pop_inv st hInv)
    · exact hInv

/-- C9: the indent stack always contains the sentinel root frame with
level 0 at the bottom, and the frame levels are strictly increasing from
bottom to top: the invariant holds in the initial state, is preserved by
every iteration of the scanning loop (which runs only while the cursor is
before the end of the buffer), and is preserved by the final unwinding,
so it holds at every point of every parse. -/
theorem C9_stack_invariant :
    (∀ input : List Char, StackInv (initState input)) ∧
    (∀ (h : Handler) (st st' : PState), StackInv st → st.pos < st.endPos →
      (StepBody h st = StepRes.cont st' ∨ StepBody h st = StepRes.abort st') →
      StackInv st') ∧
    (∀ st : PState, StackInv st → StackInv (Unwind st)) := by
  refine ⟨?_, ?_, ?_⟩
  · intro input
    exact ⟨by simp [initState], rfl, rfl⟩
  · intro h st st' hInv hlt hstep
    have hmain : ∀ stm, StackInv stm → stm.pos ≤ stm.endPos →
        (Dispatch h stm = StepRes.cont st' ∨
         Dispatch h stm = StepRes.abort st') → StackInv st' := by
      intro stm hInvm hpem hd
      obtain ⟨dc, da⟩ := dispatch_facts h stm hpem
      rcases hd with hd | hd
      · exact stackInv_of_eq (dc st' hd).2.1 hInvm
      · exact stackInv_of_eq (da st' hd).2.1 hInvm
    simp only [StepBody] at hstep
    by_cases hcol : st.col = 1
    · rw [if_pos hcol] at hstep
      have hInv₂ : StackInv (IndentPhase st).2 := indentPhase_inv st hInv
      obtain ⟨ii, ie, il, ic, ige, ile, _, _⟩ := indentPhase_facts st
      by_cases hb : (IndentPhase st).1 = true
      · rw [if_pos hb] at hstep
        have hpe₂ : ((IndentPhase st).2).pos ≤ ((IndentPhase st).2).endPos := by
          rw [ie]; omega
        exact hmain _ hInv₂ hpe₂ hstep
      · rw [if_neg hb] at hstep
        rcases hstep with hstep | hstep
        · exact StepRes.noConfusion hstep
        · have : (IndentPhase st).2 = st' := by injection hstep
          rw [← this]
          exact hInv₂
    · rw [if_neg hcol] at hstep
      exact hmain st hInv (Nat.le_of_lt hlt) hstep
  · intro st hInv
    exact unwindGo_inv st.stack.length st hInv

/-- C9 witness: the invariant holds in the initial state for the input
`a` and is preserved by the first loop iteration on that input. -/
theorem C9_stack_invariant_witness :
    StackInv (initState "a".toList) ∧
    StackInv { input := "a".toList, pos := 1, endPos := 1, line := 1, col := 0, stack := [⟨0, false⟩], complete := true, events := [Event.startDocument, Event.scalar "a"] } :=
  ⟨C9_stack_invariant.1 "a".toList,
    C9_stack_invariant.2.1 hTrue (initState "a".toList) _
      (by decide) (by decide) (Or.inl (by decide))⟩

end YamlParser

namespace YamlParser

lemma dispatch_tab (h : Handler) (st : PState)
    (htab : chAt st.input st.pos = '\t') :
    Dispatch h st = StepRes.abort (ErrorSt st "Avoid tabs in YAML files") := by
  simp [Dispatch, htab]

lemma getIndentGo_stop (input : List Char) (p lvl : Nat) (sq : Bool)
    (hc : (chAt input p = ' ' || chAt input p = '-') = false) :
    ∀ n, GetIndentGo input n p lvl sq = (p, lvl, sq) := by
  intro n
  cases n with
  | zero => rfl
  | succ n =>
    simp only [GetIndentGo]
    rw [if_neg (by simp [hc])]

lemma getIndent_tab (st : PState) (htab : chAt st.input st.pos = '\t') :
    GetIndent st = (st.pos, ⟨0, false⟩) := by
  have hc : (chAt st.input st.pos = ' ' || chAt st.input st.pos = '-') =
      false := by rw [htab]; decide
  simp only [GetIndent, getIndentGo_stop st.input st.pos 0 false hc, htab]
  rw [if_neg (show ¬(((('\t' : Char) = '\r') || (('\t' : Char) = '\n') ||
    (('\t' : Char) = '#')) = true) by decide)]

lemma stepBody_tab (h : Handler) (st : PState)
    (htab : chAt st.input st.pos = '\t') :
    ∃ st', StepBody h st = StepRes.abort st' ∧
      ∃ m lc cc, Event.error m lc cc ∈ st'.events := by
  simp only [StepBody]
  by_cases hcol : st.col = 1
  · rw [if_pos hcol]
    have hIP : IndentPhase st =
        PopToGo 0 (({ st with pos := st.pos } : PState).stack.length)
          { st with pos := st.pos } := by
      simp only [IndentPhase, PopTo, getIndent_tab st htab]
      rw [if_neg (show ¬((0 : Nat) = kNoLevel) by decide),
        if_neg (Nat.not_lt_zero _)]
    obtain ⟨qi, qp, qe, ql, qc, _, qerr⟩ :=
      popToGo_facts 0 (({ st with pos := st.pos } : PState).stack.length)
        { st with pos := st.pos }
    by_cases hb : (IndentPhase st).1 = true
    · rw [if_pos hb]
      have h2pos : ((IndentPhase st).2).pos = st.pos := by rw [hIP]; exact qp
      have h2in : ((IndentPhase st).2).input = st.input := by rw [hIP]; exact qi
      refine ⟨ErrorSt ((IndentPhase st).2) "Avoid tabs in YAML files",
        dispatch_tab h _ ?_, ?_⟩
      · rw [h2in, h2pos]
        exact htab
      · exact ⟨_, _, _, List.mem_append.mpr (Or.inr (List.mem_cons_self _ _))⟩
    · rw [if_neg hb]
      refine ⟨(IndentPhase st).2, rfl, ?_⟩
      have hbf : (IndentPhase st).1 = false := by
        cases hbb : (IndentPhase st).1 with
        | false => rfl
        | true => exact absurd hbb hb
      rw [hIP] at hbf
      have := qerr hbf
      rw [hIP]
      exact this
  · rw [if_neg hcol]
    exact ⟨ErrorSt st "Avoid tabs in YAML files", dispatch_tab h st htab,
      ⟨_, _, _, List.mem_append.mpr (Or.inr (List.mem_cons_self _ _))⟩⟩

/-- C6 (amended): every tab character that the scanning loop actually
examines — the loop is at a position holding a tab — makes the parse
fail: the iteration aborts with an error event delivered to the handler
(either the tab error itself, or the unbalanced-closure error should the
indentation pops underflow first).  Tabs inside skipped regions such as
comments are never examined and produce no error (see the
counterexample). -/
theorem C6_tab_fatal (h : Handler) (st : PState) (n : Nat)
    (hlt : st.pos < st.endPos) (htab : chAt st.input st.pos = '\t') :
    ∃ st', loopP h (n + 1) st = some (Except.error st') ∧
      ∃ m lc cc, Event.error m lc cc ∈ st'.events := by
  obtain ⟨st', hsb, herr⟩ := stepBody_tab h st htab
  exact ⟨st', by simp only [loopP, hsb]; rw [if_pos hlt], herr⟩

/-- C6 witness: the amended claim evaluated on the input consisting of a
single tab character. -/
theorem C6_tab_fatal_witness :
    (initState "\t".toList).pos < (initState "\t".toList).endPos ∧
    chAt (initState "\t".toList).input (initState "\t".toList).pos = '\t' ∧
    ∃ st', loopP hTrue (1 + 1) (initState "\t".toList) =
        some (Except.error st') ∧
      ∃ m lc cc, Event.error m lc cc ∈ st'.events :=
  ⟨by decide, by decide,
    C6_tab_fatal hTrue (initState "\t".toList) 1 (by decide) (by decide)⟩

/-- C7 (amended): whenever the scanner dispatches on a `-` character that
is immediately followed by a space, it emits a start-mapping event (not a
start-sequence event) and then skips the following spaces. -/
theorem C7_dash_space (h : Handler) (st : PState)
    (hc : chAt st.input st.pos = '-') (hp : PeekNext st = ' ') :
    Dispatch h st = StepRes.cont (SkipSpacesSt
      { st with events := st.events ++ [Event.startMapping] }) := by
  simp only [Dispatch]
  rw [if_pos hc, if_pos hp]

/-- C7 witness: the dash-space dispatch evaluated on the input `- a`. -/
theorem C7_dash_space_witness :
    chAt (initState "- a".toList).input (initState "- a".toList).pos = '-' ∧
    PeekNext (initState "- a".toList) = ' ' ∧
    Dispatch hTrue (initState "- a".toList) = StepRes.cont (SkipSpacesSt
      { initState "- a".toList with
        events := (initState "- a".toList).events ++ [Event.startMapping] }) :=
  ⟨by decide, by decide,
    C7_dash_space hTrue (initState "- a".toList) (by decide) (by decide)⟩

end YamlParser
